import Mathlib

/-!
# signedkeys: key assembly, verification and text codecs

A shallow embedding of the Go package `signedkeys` (generator.go, options.go, codec.go,
signer.go, verifier.go, rand.go) and the properties its specification states about it.

Modelling conventions

* `[]byte` is `List Byte` with `Byte = Fin 256`; byte arithmetic wraps modulo 256 as in Go.
* Go `int` is `Int` (no claim depends on 64-bit overflow), Go `uint` values that stay below
  2^24 are `Nat`.
* A Go function returning `(value, error)` returns a pair whose second component is
  `Option GoError` (`none` is the nil error); both components are always present, as in Go.
* A run-time panic is the `error` side of `Except Panic`.
* A function-typed struct field may be nil in Go, so it is an `Option` of a function;
  calling a nil function panics.  A collaborator that is not nil is a function that returns.
* Library code the package calls (encoding/hex, encoding/base64, crypto/subtle) is
  transcribed from the Go standard library; crypto/hmac is transcribed over a hash
  function given by its block size and digest.
-/

namespace signedkeys

/-! ## Bytes, errors and panics -/

/-- A Go `byte`. -/
abbrev Byte := Fin 256

/-- The bytes of an ASCII string literal, as `[]byte("...")` gives them. -/
def strBytes (s : String) : List Byte := s.toList.map (fun c => Fin.ofNat c.toNat)

/-- Go `error` values that occur: the two errors of encoding/hex, the error of
encoding/base64, and any other error a collaborator may return. -/
inductive GoError where
  | ErrLength
  | InvalidByteError (b : Byte)
  | CorruptInputError (offset : Int)
  | other (msg : String)
  deriving DecidableEq, Repr

/-- Run-time panics that occur: a slice expression out of range, a call of a nil function
value, and an explicit `panic(msg)`. -/
inductive Panic where
  | sliceBounds
  | nilFunc
  | message (msg : String)
  deriving DecidableEq, Repr

/-- The slice expression `s[:n]` on a slice whose capacity equals its length.  Go allows
`n` up to the capacity; in `VerifySignature` the expression `s[n:]` is evaluated right
after it and needs `n ≤ len(s)`, so for `n > len(s)` one of the two panics with the same
run-time error whatever the capacity is. -/
def sliceTo (s : List Byte) (n : Int) : Except Panic (List Byte) :=
  if 0 ≤ n ∧ n ≤ (s.length : Int) then .ok (s.take n.toNat) else .error Panic.sliceBounds

/-- The slice expression `s[n:]`: panics unless `0 ≤ n ≤ len(s)`. -/
def sliceFrom (s : List Byte) (n : Int) : Except Panic (List Byte) :=
  if 0 ≤ n ∧ n ≤ (s.length : Int) then .ok (s.drop n.toNat) else .error Panic.sliceBounds

/-- The value of `make([]byte, n)`: `n` zero bytes. -/
def make (n : Nat) : List Byte := List.replicate n 0

/-! ## Collaborator types (codec.go, rand.go, signer.go, verifier.go) -/

/-- Go `type Encoder func([]byte) []byte`. -/
abbrev Encoder := List Byte → List Byte

/-- Go `type Decoder func([]byte) ([]byte, error)`. -/
abbrev Decoder := List Byte → List Byte × Option GoError

/-- Go `type Rand func(int) ([]byte, error)`: the outcome of one call. -/
abbrev Rand := Int → List Byte × Option GoError

/-- Go `type Signer func(src []byte) ([]byte, error)`. -/
abbrev Signer := List Byte → List Byte × Option GoError

/-- Go `type Verifier func(key []byte, signature []byte) bool`. -/
abbrev Verifier := List Byte → List Byte → Bool

/-! ## encoding/hex -/

/-- Go `const hextable = "0123456789abcdef"`. -/
def hextable : List Byte := strBytes "0123456789abcdef"

/-- Indexing `hextable[i]`; every index the encoder uses is below 16. -/
def hextableAt (i : Byte) : Byte := hextable.getD i.val 0

/-- Go `hex.EncodedLen`. -/
def hexEncodedLen (n : Nat) : Nat := n * 2

/-- The bytes `hex.Encode` writes, in order: two digits per source byte. -/
def hexEncodeBytes : List Byte → List Byte
  | [] => []
  | v :: rest => hextableAt (v >>> 4) :: hextableAt (v &&& 0x0f) :: hexEncodeBytes rest

/-- Go `hex.Encode(dst, src)`: the contents of `dst` afterwards (the first `2*len(src)`
bytes are overwritten) and the returned count. -/
def hexEncode (dst src : List Byte) : List Byte × Int :=
  let written := hexEncodeBytes src
  (written ++ dst.drop written.length, (src.length : Int) * 2)

/-- Go `reverseHexTable[c]`: the value of a hexadecimal digit, `0xff` for any other byte. -/
def reverseHexTable (c : Byte) : Byte :=
  if 48 ≤ c ∧ c ≤ 57 then c - 48
  else if 97 ≤ c ∧ c ≤ 102 then c - 97 + 10
  else if 65 ≤ c ∧ c ≤ 70 then c - 65 + 10
  else 0xff

/-- The loop of `hex.Decode` over the source: the bytes written to `dst` so far and the
error the call returns.  Pairs are consumed while two bytes remain; a single left-over
byte is reported as an invalid byte if it is one, as an odd length otherwise. -/
def hexDecodeBytes : List Byte → List Byte × Option GoError
  | [] => ([], none)
  | [p] =>
    if reverseHexTable p > 0x0f then ([], some (GoError.InvalidByteError p))
    else ([], some GoError.ErrLength)
  | p :: q :: rest =>
    let a := reverseHexTable p
    let b := reverseHexTable q
    if a > 0x0f then ([], some (GoError.InvalidByteError p))
    else if b > 0x0f then ([], some (GoError.InvalidByteError q))
    else
      let r := hexDecodeBytes rest
      (((a <<< 4) ||| b) :: r.1, r.2)

/-- Go `hex.Decode(dst, src)`: the contents of `dst` afterwards, the number of bytes
written and the error. -/
def hexDecode (dst src : List Byte) : List Byte × Int × Option GoError :=
  let r := hexDecodeBytes src
  (r.1 ++ dst.drop r.1.length, (r.1.length : Int), r.2)

/-! ## encoding/base64, `StdEncoding` (standard alphabet, `=` padding, not strict) -/

/-- The alphabet of `base64.StdEncoding`. -/
def encodeStd : List Byte :=
  strBytes "ABCDEFGHIJKLMNOPQRSTUVWXYZabcdefghijklmnopqrstuvwxyz0123456789+/"

/-- The padding character `=` of `base64.StdEncoding`. -/
def padChar : Byte := 61

/-- Indexing `enc.encode[i]`; every index the encoder uses is below 64. -/
def encodeAt (i : Nat) : Byte := encodeStd.getD i 0

/-- Go `enc.decodeMap[c]`: the index of `c` in the alphabet, `0xff` when it is not in it. -/
def decodeMap (c : Byte) : Byte :=
  let i := encodeStd.indexOf c
  if i < 64 then Fin.ofNat i else 0xff

/-- Go `StdEncoding.EncodedLen`. -/
def base64EncodedLen (n : Nat) : Nat := (n + 2) / 3 * 4

/-- The bytes `StdEncoding.Encode` writes: four characters per full group of three source
bytes, then the padded group for one or two remaining bytes. -/
def base64EncodeBytes : List Byte → List Byte
  | [] => []
  | [b0] =>
    let val : Nat := b0.val <<< 16
    [encodeAt (val >>> 18 &&& 0x3F), encodeAt (val >>> 12 &&& 0x3F), padChar, padChar]
  | [b0, b1] =>
    let val : Nat := b0.val <<< 16 ||| b1.val <<< 8
    [encodeAt (val >>> 18 &&& 0x3F), encodeAt (val >>> 12 &&& 0x3F),
     encodeAt (val >>> 6 &&& 0x3F), padChar]
  | b0 :: b1 :: b2 :: rest =>
    let val : Nat := b0.val <<< 16 ||| b1.val <<< 8 ||| b2.val
    encodeAt (val >>> 18 &&& 0x3F) :: encodeAt (val >>> 12 &&& 0x3F) ::
      encodeAt (val >>> 6 &&& 0x3F) :: encodeAt (val &&& 0x3F) :: base64EncodeBytes rest

/-- Go `StdEncoding.Encode(dst, src)`: the contents of `dst` afterwards. -/
def base64Encode (dst src : List Byte) : List Byte :=
  let written := base64EncodeBytes src
  written ++ dst.drop written.length

/-- Skipping `\n` and `\r`: the loop `for si < len(src) && (src[si] == '\n' || ...)`. -/
def skipNewlines : List Byte → Nat → List Byte × Nat
  | [], si => ([], si)
  | c :: rest, si => if c = 10 ∨ c = 13 then skipNewlines rest (si + 1) else (c :: rest, si)

/-- How the character loop of `decodeQuantum` ends: with an early `return si, 0, err`, or
by leaving the loop with the sextets read (`dbuf`), `dlen` and a possible trailing-garbage
error. -/
inductive QuantumScan where
  | early (rest : List Byte) (si : Nat) (err : Option GoError)
  | filled (rest : List Byte) (si : Nat) (dbuf : List Byte) (dlen : Nat)
      (err : Option GoError)
  deriving DecidableEq, Repr

/-- The unread input a character loop of `decodeQuantum` leaves. -/
def QuantumScan.unread : QuantumScan → List Byte
  | .early rest _ _ => rest
  | .filled rest _ _ _ _ => rest

/-- The character loop of Go `decodeQuantum` for a padded, non-strict encoding.  `rest` is
`src[si:]`, `total` is `len(src)`, `j` the loop counter and `dbuf` the sextets stored so
far (`dbuf[0..j)`). -/
def quantumScan (total : Nat) : List Byte → Nat → Nat → List Byte → QuantumScan
  | [], si, j, dbuf =>
    if j ≥ 4 then .filled [] si dbuf 4 none
    else if j = 0 then .early [] si none
    else .early [] si (some (GoError.CorruptInputError ((si : Int) - j)))
  | c :: rest, si, j, dbuf =>
    if j ≥ 4 then .filled (c :: rest) si dbuf 4 none
    else
      let out := decodeMap c
      if out ≠ 0xff then quantumScan total rest (si + 1) (j + 1) (dbuf ++ [out])
      else if c = 10 ∨ c = 13 then quantumScan total rest (si + 1) j dbuf
      else if c ≠ padChar then
        .early rest (si + 1) (some (GoError.CorruptInputError ((si : Int) + 1 - 1)))
      else if j = 0 ∨ j = 1 then
        .early rest (si + 1) (some (GoError.CorruptInputError ((si : Int) + 1 - 1)))
      else if j = 2 then
        match skipNewlines rest (si + 1) with
        | ([], si2) => .early [] si2 (some (GoError.CorruptInputError total))
        | (c2 :: rest2, si2) =>
          if c2 ≠ padChar then
            .early (c2 :: rest2) si2 (some (GoError.CorruptInputError ((si2 : Int) - 1)))
          else
            match skipNewlines rest2 (si2 + 1) with
            | ([], si3) => .filled [] si3 dbuf j none
            | (r3, si3) => .filled r3 si3 dbuf j (some (GoError.CorruptInputError si3))
      else
        match skipNewlines rest (si + 1) with
        | ([], si3) => .filled [] si3 dbuf j none
        | (r3, si3) => .filled r3 si3 dbuf j (some (GoError.CorruptInputError si3))

/-- Go `decodeQuantum(dst, src, si)` for `StdEncoding`: the unread input, the new `si`,
the bytes written to the front of `dst` (there are `dlen - 1` of them) and the error. -/
def decodeQuantum (total : Nat) (rest : List Byte) (si : Nat) :
    List Byte × Nat × List Byte × Option GoError :=
  match quantumScan total rest si 0 [] with
  | .early r nsi err => (r, nsi, [], err)
  | .filled r nsi dbuf dlen err =>
    let val : Nat := (dbuf.getD 0 0).val <<< 18 ||| (dbuf.getD 1 0).val <<< 12 |||
      (dbuf.getD 2 0).val <<< 6 ||| (dbuf.getD 3 0).val
    let d2 : Byte := Fin.ofNat (val >>> 0)
    let d1 : Byte := Fin.ofNat (val >>> 8)
    let d0 : Byte := Fin.ofNat (val >>> 16)
    (r, nsi, [d0, d1, d2].take (dlen - 1), err)

/-- The loop `for si < len(src)` of Go `Decode`, one `decodeQuantum` per turn: the bytes
written and the error.  Every turn reads at least one byte, so `len(src)` turns are
enough; `fuel` counts them. -/
def base64DecodeLoop (total : Nat) : Nat → List Byte → Nat → List Byte × Option GoError
  | 0, _, _ => ([], none)
  | _ + 1, [], _ => ([], none)
  | fuel + 1, c :: rest, si =>
    match decodeQuantum total (c :: rest) si with
    | (_, _, out, some err) => (out, some err)
    | (r, nsi, out, none) =>
      let t := base64DecodeLoop total fuel r nsi
      (out ++ t.1, t.2)

/-- Go `StdEncoding.Decode(dst, src)`: the contents of `dst` afterwards, the number of
bytes written and the error.  The 8- and 4-character fast paths of the library write the
same bytes as `decodeQuantum` does on the same characters and fall back to it otherwise,
so the quantum loop alone gives the result. -/
def base64Decode (dst src : List Byte) : List Byte × Int × Option GoError :=
  let r := base64DecodeLoop src.length src.length src 0
  (r.1 ++ dst.drop r.1.length, (r.1.length : Int), r.2)

/-! ## codec.go -/

/-- Go `NoopEncoding`: the identity encoder and a decoder that returns its input. -/
def NoopEncoding : Encoder × Decoder :=
  (fun src => src, fun src => (src, none))

/-- Go `HexEncoding`: the encoder allocates `hex.EncodedLen(len(src))` bytes and fills
them with `hex.Encode`; the decoder allocates `len(src)` bytes, runs `hex.Decode` and
returns `res[:n]` with the error. -/
def HexEncoding : Encoder × Decoder :=
  (fun src =>
      let res := make (hexEncodedLen src.length)
      (hexEncode res src).1,
   fun src =>
      let res := make src.length
      let r := hexDecode res src
      (r.1.take r.2.1.toNat, r.2.2))

/-- Go `Base64Encoding`, over `base64.StdEncoding`. -/
def Base64Encoding : Encoder × Decoder :=
  (fun src =>
      let res := make (base64EncodedLen src.length)
      base64Encode res src,
   fun src =>
      let res := make src.length
      let r := base64Decode res src
      (r.1.take r.2.1.toNat, r.2.2))

/-! ## crypto/subtle and crypto/hmac -/

/-- Go `subtle.ConstantTimeByteEq`: `int((uint32(x^y) - 1) >> 31)` in 32-bit arithmetic. -/
def ConstantTimeByteEq (x y : Byte) : Int :=
  ((((x ^^^ y).val + 2 ^ 32 - 1) % 2 ^ 32) >>> 31 : Nat)

/-- Go `subtle.ConstantTimeCompare`: 0 when the lengths differ, otherwise the bytewise
differences are or-ed together and compared with zero. -/
def ConstantTimeCompare (x y : List Byte) : Int :=
  if x.length ≠ y.length then 0
  else
    let v : Byte := (List.zip x y).foldl (fun v p => v ||| (p.1 ^^^ p.2)) 0
    ConstantTimeByteEq v 0

/-- A hash constructor `h func() hash.Hash`, with what crypto/hmac uses of the hash it
creates: `BlockSize()` and the digest `Sum(nil)` of the bytes written to a fresh hash. -/
structure HashFunc where
  BlockSize : Nat
  Sum : List Byte → List Byte

/-- The value of `m.Sum(nil)` after `m := hmac.New(h, key); m.Write(src)`, as crypto/hmac
computes it: a key longer than the block size is hashed first, the key is copied into two
zeroed blocks that are xor-ed with 0x36 and 0x5c, and the result is the digest of the
outer pad followed by the digest of the inner pad followed by `src`. -/
def HashFunc.hmacSum (h : HashFunc) (key src : List Byte) : List Byte :=
  let key := if key.length > h.BlockSize then h.Sum key else key
  let pad := key.take h.BlockSize ++ List.replicate (h.BlockSize - key.length) 0
  let ipad := pad.map (fun b => b ^^^ 0x36)
  let opad := pad.map (fun b => b ^^^ 0x5c)
  h.Sum (opad ++ h.Sum (ipad ++ src))

/-! ## crypto/sha256 (the hash function of generator_test.go) -/

/-- The round constants of SHA-256. -/
def sha256K : List Nat := [
  0x428a2f98, 0x71374491, 0xb5c0fbcf, 0xe9b5dba5, 0x3956c25b, 0x59f111f1, 0x923f82a4,
  0xab1c5ed5, 0xd807aa98, 0x12835b01, 0x243185be, 0x550c7dc3, 0x72be5d74, 0x80deb1fe,
  0x9bdc06a7, 0xc19bf174, 0xe49b69c1, 0xefbe4786, 0x0fc19dc6, 0x240ca1cc, 0x2de92c6f,
  0x4a7484aa, 0x5cb0a9dc, 0x76f988da, 0x983e5152, 0xa831c66d, 0xb00327c8, 0xbf597fc7,
  0xc6e00bf3, 0xd5a79147, 0x06ca6351, 0x14292967, 0x27b70a85, 0x2e1b2138, 0x4d2c6dfc,
  0x53380d13, 0x650a7354, 0x766a0abb, 0x81c2c92e, 0x92722c85, 0xa2bfe8a1, 0xa81a664b,
  0xc24b8b70, 0xc76c51a3, 0xd192e819, 0xd6990624, 0xf40e3585, 0x106aa070, 0x19a4c116,
  0x1e376c08, 0x2748774c, 0x34b0bcb5, 0x391c0cb3, 0x4ed8aa4a, 0x5b9cca4f, 0x682e6ff3,
  0x748f82ee, 0x78a5636f, 0x84c87814, 0x8cc70208, 0x90befffa, 0xa4506ceb, 0xbef9a3f7,
  0xc67178f2]

/-- The initial hash value of SHA-256. -/
def sha256Init : List Nat :=
  [0x6a09e667, 0xbb67ae85, 0x3c6ef372, 0xa54ff53a, 0x510e527f, 0x9b05688c, 0x1f83d9ab,
   0x5be0cd19]

/-- Rotation of a 32-bit word to the right. -/
def rotateRight32 (x n : Nat) : Nat := (x >>> n ||| x <<< (32 - n)) % 2 ^ 32

/-- The padded message: the byte 0x80, zero bytes up to 56 modulo 64, and the bit length
as 8 big-endian bytes. -/
def sha256Pad (m : List Byte) : List Byte :=
  let zeros := (64 - (m.length + 9) % 64) % 64
  let bits := m.length * 8
  m ++ [(0x80 : Byte)] ++ List.replicate zeros (0 : Byte) ++
    (List.range 8).map (fun i => (Fin.ofNat (bits >>> (8 * (7 - i))) : Byte))

/-- The big-endian 32-bit words of a byte sequence. -/
def bigEndianWords : List Byte → List Nat
  | a :: b :: c :: d :: rest =>
    (a.val <<< 24 ||| b.val <<< 16 ||| c.val <<< 8 ||| d.val) :: bigEndianWords rest
  | _ => []

/-- The message schedule, grown by `n` words; `w` holds the words so far, latest first. -/
def sha256Schedule : Nat → List Nat → List Nat
  | 0, w => w
  | n + 1, w =>
    let w2 := w.getD 1 0
    let w7 := w.getD 6 0
    let w15 := w.getD 14 0
    let w16 := w.getD 15 0
    let s0 := rotateRight32 w15 7 ^^^ rotateRight32 w15 18 ^^^ (w15 >>> 3)
    let s1 := rotateRight32 w2 17 ^^^ rotateRight32 w2 19 ^^^ (w2 >>> 10)
    sha256Schedule n (((w16 + s0 + w7 + s1) % 2 ^ 32) :: w)

/-- One round of the compression function on the eight working variables, for a round
constant and a schedule word. -/
def sha256Round (st : List Nat) (kw : Nat × Nat) : List Nat :=
  match st with
  | [a, b, c, d, e, f, g, h] =>
    let S1 := rotateRight32 e 6 ^^^ rotateRight32 e 11 ^^^ rotateRight32 e 25
    let ch := (e &&& f) ^^^ ((e ^^^ 0xffffffff) &&& g)
    let t1 := (h + S1 + ch + kw.1 + kw.2) % 2 ^ 32
    let S0 := rotateRight32 a 2 ^^^ rotateRight32 a 13 ^^^ rotateRight32 a 22
    let maj := (a &&& b) ^^^ (a &&& c) ^^^ (b &&& c)
    let t2 := (S0 + maj) % 2 ^ 32
    [(t1 + t2) % 2 ^ 32, a, b, c, (d + t1) % 2 ^ 32, e, f, g]
  | _ => st

/-- The compression of one 64-byte block into the hash state. -/
def sha256Block (st : List Nat) (block : List Byte) : List Nat :=
  let w := (sha256Schedule 48 (bigEndianWords block).reverse).reverse
  let st2 := (List.zip sha256K w).foldl sha256Round st
  List.zipWith (fun x y => (x + y) % 2 ^ 32) st st2

/-- The compression of `n` consecutive blocks. -/
def sha256Blocks : Nat → List Byte → List Nat → List Nat
  | 0, _, st => st
  | n + 1, m, st => sha256Blocks n (m.drop 64) (sha256Block st (m.take 64))

/-- Go `sha256.Sum256`: the SHA-256 digest, 32 bytes. -/
def Sum256 (m : List Byte) : List Byte :=
  let p := sha256Pad m
  let st := sha256Blocks (p.length / 64) p sha256Init
  st.flatMap (fun w =>
    [Fin.ofNat (w >>> 24), Fin.ofNat (w >>> 16), Fin.ofNat (w >>> 8), Fin.ofNat w])

/-- Go `sha256.New` as a hash constructor: block size 64, digest `Sum256`. -/
def sha256New : HashFunc := { BlockSize := 64, Sum := Sum256 }

/-! ## signer.go -/

/-- Go `NoopSigner`: the empty signature, no error. -/
def NoopSigner : Signer := fun _ => ([], none)

/-- Go `HmacSigner(h, signingKey, prefixLength)`: the HMAC of `src`, cut to its first
`prefixLength` bytes when `0 < prefixLength < len(res)`. -/
def HmacSigner (h : HashFunc) (signingKey : List Byte) (prefixLength : Int) : Signer :=
  fun src =>
    let res := h.hmacSum signingKey src
    let res := if prefixLength > 0 ∧ prefixLength < (res.length : Int)
      then res.take prefixLength.toNat else res
    (res, none)

/-! ## verifier.go -/

/-- Go `NoopVerifier`: always true. -/
def NoopVerifier : Verifier := fun _ _ => true

/-- Go `HmacVerifier(h, signingKey, prefixLength)`: recomputes the HMAC of `key` and
compares it in constant time with `signature`, whole when `prefixLength ≤ 0` or
`prefixLength ≥ len(resSig)`, cut to `prefixLength` bytes otherwise. -/
def HmacVerifier (h : HashFunc) (signingKey : List Byte) (prefixLength : Int) : Verifier :=
  fun key signature =>
    let resSig := h.hmacSum signingKey key
    if prefixLength ≤ 0 ∨ prefixLength ≥ (resSig.length : Int) then
      ConstantTimeCompare resSig signature == 1
    else
      ConstantTimeCompare (resSig.take prefixLength.toNat) signature == 1

/-! ## rand.go -/

/-- The call `rand.Read(res)` of crypto/rand on a buffer of the given length: the buffer
afterwards and the error. -/
abbrev EntropySource := Nat → List Byte × Option GoError

/-- Go `Secure()`: a buffer of `length` bytes filled by `rand.Read`, returned with the
error of the read.  (`make` panics for a negative `length`; the package never passes
one, see `WithKeyLength`.) -/
def Secure (read : EntropySource) : Rand :=
  fun length =>
    let r := read length.toNat
    match r.2 with
    | some err => (r.1, some err)
    | none => (r.1, none)

/-! ## generator.go and options.go -/

/-- Go `const DefaultKeyLength = 16`. -/
def DefaultKeyLength : Int := 16

/-- Go `type Generator struct`.  Each function field is `none` when it is nil. -/
structure Generator where
  keyLength : Int
  rand : Option Rand
  encoder : Option Encoder
  decoder : Option Decoder
  signer : Option Signer
  verifier : Option Verifier

/-- Go `type Option func(*Generator)`: the update an option performs on the generator. -/
abbrev GeneratorOption := Generator → Generator

/-- Go `WithKeyLength`: panics when the option is created with `keyLength ≤ 0`. -/
def WithKeyLength (keyLength : Int) : Except Panic GeneratorOption :=
  if keyLength ≤ 0 then .error (Panic.message "default key length must be greater than zero")
  else .ok (fun g => { g with keyLength := keyLength })

/-- Go `WithRand`. -/
def WithRand (rand : Option Rand) : GeneratorOption :=
  fun g => { g with rand := rand }

/-- Go `WithEncoding`: sets encoder and decoder together. -/
def WithEncoding (encoder : Option Encoder) (decoder : Option Decoder) : GeneratorOption :=
  fun g => { g with encoder := encoder, decoder := decoder }

/-- Go `WithSigner`. -/
def WithSigner (signer : Option Signer) : GeneratorOption :=
  fun g => { g with signer := signer }

/-- Go `WithVerifier`. -/
def WithVerifier (verifier : Option Verifier) : GeneratorOption :=
  fun g => { g with verifier := verifier }

/-- Go `NewGenerator(options...)`: the struct literal (which leaves `verifier` unset, so
nil), then every option applied in order.  `read` is the entropy behind `Secure()`. -/
def NewGenerator (read : EntropySource) (options : List GeneratorOption) : Generator :=
  let res : Generator :=
    { keyLength := DefaultKeyLength
      rand := some (Secure read)
      encoder := some NoopEncoding.1
      decoder := some NoopEncoding.2
      signer := some NoopSigner
      verifier := none }
  options.foldl (fun g o => o g) res

/-- Go `(*Generator).GenerateKey`: the returned pair, or the panic of a nil call. -/
def Generator.GenerateKey (g : Generator) : Except Panic (List Byte × Option GoError) :=
  match g.rand with
  | none => .error Panic.nilFunc
  | some rand =>
    match rand g.keyLength with
    | (res, some err) => .ok (res, some err)
    | (res, none) =>
      match g.signer with
      | none => .error Panic.nilFunc
      | some signer =>
        match signer res with
        | (_, some err) => .ok (res, some err)
        | (signature, none) =>
          match g.encoder with
          | none => .error Panic.nilFunc
          | some encoder => .ok (encoder (res ++ signature), none)

/-- Go `(*Generator).VerifySignature`: the returned boolean, or the panic raised by a nil
call or by one of the two slice expressions (both are evaluated before the verifier is
called). -/
def Generator.VerifySignature (g : Generator) (key : List Byte) : Except Panic Bool :=
  match g.decoder with
  | none => .error Panic.nilFunc
  | some decoder =>
    match decoder key with
    | (_, some _) => .ok false
    | (decodedKey, none) =>
      match sliceTo decodedKey g.keyLength with
      | .error p => .error p
      | .ok randomPart =>
        match sliceFrom decodedKey g.keyLength with
        | .error p => .error p
        | .ok signaturePart =>
          match g.verifier with
          | none => .error Panic.nilFunc
          | some verifier => .ok (verifier randomPart signaturePart)

/-! ## Concrete collaborators used to evaluate the code -/

/-- The mock `testKeyRand` of generator_test.go: always the 16 bytes `testkeylength_16`. -/
def testKeyRand : Rand := fun _ => (strBytes "testkeylength_16", none)

/-- The signing key of generator_test.go. -/
def testSigningKey : List Byte := strBytes "test_signing_key"

/-- An entropy source that leaves the buffer zeroed and reports no error. -/
def zeroEntropy : EntropySource := fun n => (make n, none)

/-- A random source that fails with an error and returns no bytes. -/
def failingRand : Rand := fun _ => ([], some (GoError.other "entropy"))

/-- A signer that fails with an error. -/
def failingSigner : Signer := fun _ => ([], some (GoError.other "signing"))

/-- The HMAC-SHA256-over-hex generator of generator_test.go, built with the options the
test uses: `p1` is the signer's prefix length, `p2` the verifier's. -/
def hmacHexGenerator (p1 p2 : Int) : Generator :=
  NewGenerator zeroEntropy
    [WithRand (some testKeyRand),
     WithSigner (some (HmacSigner sha256New testSigningKey p1)),
     WithVerifier (some (HmacVerifier sha256New testSigningKey p2)),
     WithEncoding (some HexEncoding.1) (some HexEncoding.2)]

/-! ## Notions the claims use -/

/-- A hexadecimal digit in the claims' sense: one of `0`-`9`, `a`-`f`, `A`-`F`. -/
def isHexDigit (c : Byte) : Bool :=
  (48 ≤ c ∧ c ≤ 57) ∨ (97 ≤ c ∧ c ≤ 102) ∨ (65 ≤ c ∧ c ≤ 70)

/-- An argument of a call `NewGenerator(...)` as the caller writes it: a call of one of the
five constructors of options.go. -/
inductive OptionCall where
  | withKeyLength (keyLength : Int)
  | withRand (rand : Option Rand)
  | withEncoding (encoder : Option Encoder) (decoder : Option Decoder)
  | withSigner (signer : Option Signer)
  | withVerifier (verifier : Option Verifier)

/-- The value of one argument: the option, or the panic `WithKeyLength` raises. -/
def OptionCall.eval : OptionCall → Except Panic GeneratorOption
  | .withKeyLength n => WithKeyLength n
  | .withRand r => .ok (WithRand r)
  | .withEncoding e d => .ok (WithEncoding e d)
  | .withSigner s => .ok (WithSigner s)
  | .withVerifier v => .ok (WithVerifier v)

/-- The arguments of a call `NewGenerator(...)`, evaluated left to right before the call,
as Go does; the first panic ends the evaluation. -/
def evalOptions : List OptionCall → Except Panic (List GeneratorOption)
  | [] => .ok []
  | c :: rest =>
    match c.eval with
    | .error p => .error p
    | .ok o =>
      match evalOptions rest with
      | .error p => .error p
      | .ok os => .ok (o :: os)

/-- The call `NewGenerator(args...)`: the arguments are evaluated, then `NewGenerator`
runs on the options they gave. -/
def newGeneratorCall (read : EntropySource) (calls : List OptionCall) :
    Except Panic Generator :=
  match evalOptions calls with
  | .error p => .error p
  | .ok opts => .ok (NewGenerator read opts)

/-- The key length of the last `WithKeyLength` in the list, if there is one. -/
def lastKeyLength (calls : List OptionCall) : Option Int :=
  (calls.filterMap fun c => match c with
    | .withKeyLength n => some n
    | _ => none).getLast?

/-- The argument of the last `WithRand` in the list, if there is one. -/
def lastRand (calls : List OptionCall) : Option (Option Rand) :=
  (calls.filterMap fun c => match c with
    | .withRand r => some r
    | _ => none).getLast?

/-- The arguments of the last `WithEncoding` in the list, if there is one. -/
def lastEncoding (calls : List OptionCall) : Option (Option Encoder × Option Decoder) :=
  (calls.filterMap fun c => match c with
    | .withEncoding e d => some (e, d)
    | _ => none).getLast?

/-- The argument of the last `WithSigner` in the list, if there is one. -/
def lastSigner (calls : List OptionCall) : Option (Option Signer) :=
  (calls.filterMap fun c => match c with
    | .withSigner s => some s
    | _ => none).getLast?

/-- The argument of the last `WithVerifier` in the list, if there is one. -/
def lastVerifier (calls : List OptionCall) : Option (Option Verifier) :=
  (calls.filterMap fun c => match c with
    | .withVerifier v => some v
    | _ => none).getLast?

/-! ## Helper lemmas: constant-time comparison -/

theorem byte_or_eq_zero (a b : Byte) : a ||| b = 0 ↔ a = 0 ∧ b = 0 := by
  constructor
  · intro h
    have h1 : (a ||| b).val = 0 := by rw [h]; rfl
    have h2 : (a ||| b).val = (a.val ||| b.val) % 256 := rfl
    have h3 : a.val ||| b.val < 2 ^ 8 := Nat.or_lt_two_pow (by omega) (by omega)
    rw [h2, Nat.mod_eq_of_lt (by omega)] at h1
    have ha : a.val = 0 := by
      apply Nat.eq_of_testBit_eq; intro i
      have := congrArg (fun n => n.testBit i) h1
      simp only [Nat.testBit_or, Nat.zero_testBit, Bool.or_eq_false_iff] at this
      simpa using this.1
    have hb : b.val = 0 := by
      apply Nat.eq_of_testBit_eq; intro i
      have := congrArg (fun n => n.testBit i) h1
      simp only [Nat.testBit_or, Nat.zero_testBit, Bool.or_eq_false_iff] at this
      simpa using this.2
    exact ⟨Fin.ext ha, Fin.ext hb⟩
  · rintro ⟨rfl, rfl⟩; rfl

theorem byte_xor_eq_zero (a b : Byte) : a ^^^ b = 0 ↔ a = b := by
  constructor
  · intro h
    have h1 : (a ^^^ b).val = 0 := by rw [h]; rfl
    have h2 : (a ^^^ b).val = (a.val ^^^ b.val) % 256 := rfl
    have h3 : a.val ^^^ b.val < 2 ^ 8 := Nat.xor_lt_two_pow (by omega) (by omega)
    rw [h2, Nat.mod_eq_of_lt (by omega)] at h1
    exact Fin.ext (Nat.xor_eq_zero.mp h1)
  · rintro rfl
    apply Fin.ext
    show (a.val ^^^ a.val) % 256 = 0
    simp

set_option maxRecDepth 100000 in
theorem ConstantTimeByteEq_zero : ∀ v : Byte, ConstantTimeByteEq v 0 = 1 ↔ v = 0 := by
  decide

theorem foldl_or_xor_eq_zero (x : List Byte) :
    ∀ (y : List Byte) (v : Byte), x.length = y.length →
      ((List.zip x y).foldl (fun v p => v ||| (p.1 ^^^ p.2)) v = 0 ↔ v = 0 ∧ x = y) := by
  induction x with
  | nil =>
    intro y v hlen
    cases y with
    | nil => simp
    | cons b y => simp at hlen
  | cons a x ih =>
    intro y v hlen
    cases y with
    | nil => simp at hlen
    | cons b y =>
      have hlen2 : x.length = y.length := by simpa using hlen
      simp only [List.zip_cons_cons, List.foldl_cons, List.cons.injEq]
      rw [ih y _ hlen2, byte_or_eq_zero, byte_xor_eq_zero]
      tauto

/-- `subtle.ConstantTimeCompare` returns 1 exactly on equal slices. -/
theorem ConstantTimeCompare_eq_one (x y : List Byte) :
    ConstantTimeCompare x y = 1 ↔ x = y := by
  unfold ConstantTimeCompare
  by_cases hlen : x.length = y.length
  · simp only [hlen, ne_eq, not_true_eq_false, if_false]
    rw [ConstantTimeByteEq_zero, foldl_or_xor_eq_zero x y 0 hlen]
    simp
  · simp only [ne_eq, hlen, not_false_eq_true, if_true]
    constructor
    · intro h; exact absurd h (by decide)
    · intro h; exact absurd (congrArg List.length h) hlen

/-! ## Helper lemmas: HMAC signer against HMAC verifier -/

/-- The verifier accepts what the signer with the same parameters produces. -/
theorem HmacVerifier_HmacSigner (h : HashFunc) (k : List Byte) (p : Int) (src : List Byte) :
    HmacVerifier h k p src (HmacSigner h k p src).1 = true := by
  simp only [HmacVerifier, HmacSigner]
  by_cases hp : p > 0 ∧ p < ((h.hmacSum k src).length : Int)
  · have hq : ¬ (p ≤ 0 ∨ p ≥ ((h.hmacSum k src).length : Int)) := by omega
    simp only [hp, hq, and_self, if_true, if_false, beq_iff_eq]
    exact (ConstantTimeCompare_eq_one _ _).mpr rfl
  · have hq : p ≤ 0 ∨ p ≥ ((h.hmacSum k src).length : Int) := by omega
    simp only [hp, hq, if_true, if_false, beq_iff_eq]
    exact (ConstantTimeCompare_eq_one _ _).mpr rfl

/-- The length of the signature `HmacSigner` returns. -/
theorem HmacSigner_length (h : HashFunc) (k : List Byte) (p : Int) (src : List Byte) :
    ((HmacSigner h k p src).1.length : Int) =
      if p > 0 ∧ p < ((h.hmacSum k src).length : Int) then p
      else ((h.hmacSum k src).length : Int) := by
  simp only [HmacSigner]
  by_cases hp : p > 0 ∧ p < ((h.hmacSum k src).length : Int)
  · simp only [hp, and_self, if_true, List.length_take]
    omega
  · simp only [hp, if_false]

/-- The verifier rejects every signature whose length is not the length it compares. -/
theorem HmacVerifier_length_mismatch (h : HashFunc) (k : List Byte) (p : Int)
    (key sig : List Byte)
    (hne : (sig.length : Int) ≠
      if p > 0 ∧ p < ((h.hmacSum k key).length : Int) then p
      else ((h.hmacSum k key).length : Int)) :
    HmacVerifier h k p key sig = false := by
  simp only [HmacVerifier]
  by_cases hp : p > 0 ∧ p < ((h.hmacSum k key).length : Int)
  · have hq : ¬ (p ≤ 0 ∨ p ≥ ((h.hmacSum k key).length : Int)) := by omega
    simp only [hp, and_self, if_true] at hne
    simp only [hq, if_false, beq_eq_false_iff_ne, ne_eq, ConstantTimeCompare_eq_one]
    intro heq
    apply hne
    rw [← heq, List.length_take]
    omega
  · have hq : p ≤ 0 ∨ p ≥ ((h.hmacSum k key).length : Int) := by omega
    simp only [hp, if_false] at hne
    simp only [hq, if_true, beq_eq_false_iff_ne, ne_eq, ConstantTimeCompare_eq_one]
    intro heq
    apply hne
    rw [← heq]

/-! ## Helper lemmas: the two operations of the generator -/

/-- `GenerateKey` when rand and signer succeed and an encoder is set. -/
theorem GenerateKey_of_success (g : Generator) (r : Rand) (s : Signer) (enc : Encoder)
    (res sig : List Byte) (hr : g.rand = some r) (hres : r g.keyLength = (res, none))
    (hs : g.signer = some s) (hsig : s res = (sig, none)) (he : g.encoder = some enc) :
    g.GenerateKey = .ok (enc (res ++ sig), none) := by
  simp only [Generator.GenerateKey, hr, hres, hs, hsig, he]

/-- `VerifySignature` when decoding succeeds with at least `keyLength` bytes. -/
theorem VerifySignature_of_decoded (g : Generator) (dec : Decoder) (v : Verifier)
    (key raw : List Byte) (n : Nat) (hd : g.decoder = some dec) (hraw : dec key = (raw, none))
    (hk : g.keyLength = (n : Int)) (hn : n ≤ raw.length) (hv : g.verifier = some v) :
    g.VerifySignature key = .ok (v (raw.take n) (raw.drop n)) := by
  have hb : (0 : Int) ≤ (n : Int) ∧ (n : Int) ≤ (raw.length : Int) := by omega
  simp only [Generator.VerifySignature, hd, hraw, hk, sliceTo, sliceFrom, hb, and_self,
    if_true, hv, Int.toNat_ofNat]

/-! ## Helper lemmas: hex codec -/

set_option maxRecDepth 100000 in
theorem hex_digits_roundtrip : ∀ v : Byte,
    ¬ (reverseHexTable (hextableAt (v >>> 4)) > 0x0f) ∧
    ¬ (reverseHexTable (hextableAt (v &&& 0x0f)) > 0x0f) ∧
    (reverseHexTable (hextableAt (v >>> 4)) <<< 4) |||
      reverseHexTable (hextableAt (v &&& 0x0f)) = v := by
  decide

theorem hexDecodeBytes_hexEncodeBytes (b : List Byte) :
    hexDecodeBytes (hexEncodeBytes b) = (b, none) := by
  induction b with
  | nil => rfl
  | cons v rest ih =>
    obtain ⟨h1, h2, h3⟩ := hex_digits_roundtrip v
    simp only [hexEncodeBytes, hexDecodeBytes, h1, h2, if_false, ih, h3]

theorem hexEncodeBytes_length (b : List Byte) :
    (hexEncodeBytes b).length = b.length * 2 := by
  induction b with
  | nil => rfl
  | cons v rest ih => simp only [hexEncodeBytes, List.length_cons, ih]; omega

/-- The encoder of `HexEncoding` returns exactly the digits `hex.Encode` writes. -/
theorem HexEncoding_encoder (b : List Byte) : HexEncoding.1 b = hexEncodeBytes b := by
  simp [HexEncoding, hexEncode, make, hexEncodedLen, hexEncodeBytes_length]

/-- The decoder of `HexEncoding` inverts its encoder. -/
theorem HexEncoding_decoder_encoder (b : List Byte) :
    HexEncoding.2 (HexEncoding.1 b) = (b, none) := by
  rw [HexEncoding_encoder]
  simp [HexEncoding, hexDecode, hexDecodeBytes_hexEncodeBytes]

/-! ## Helper lemmas: base64 codec -/

set_option maxRecDepth 100000 in
theorem decodeMap_encodeAt_fin : ∀ i : Fin 64,
    decodeMap (encodeAt i.val) ≠ 0xff ∧ (decodeMap (encodeAt i.val)).val = i.val := by
  decide

theorem decodeMap_encodeAt (i : Nat) (hi : i < 64) :
    decodeMap (encodeAt i) ≠ 0xff ∧ (decodeMap (encodeAt i)).val = i :=
  decodeMap_encodeAt_fin ⟨i, hi⟩

theorem decodeMap_padChar : decodeMap padChar = 0xff := by decide

theorem or_eq_add_of_dvd (x b k : Nat) (hx : 2 ^ k ∣ x) (hb : b < 2 ^ k) :
    x ||| b = x + b := by
  obtain ⟨a, rfl⟩ := hx
  exact (Nat.mul_add_lt_is_or hb a).symm

theorem and_63 (x : Nat) : x &&& 0x3F = x % 64 :=
  Nat.and_pow_two_sub_one_eq_mod x 6

/-- The 24-bit group value of three bytes, arithmetically. -/
theorem group_value (b0 b1 b2 : Nat) (h1 : b1 < 256) (h2 : b2 < 256) :
    b0 <<< 16 ||| b1 <<< 8 ||| b2 = b0 * 65536 + b1 * 256 + b2 := by
  simp only [Nat.shiftLeft_eq]
  rw [or_eq_add_of_dvd (b0 * 2 ^ 16) (b1 * 2 ^ 8) 16 (by norm_num) (by norm_num; omega)]
  rw [or_eq_add_of_dvd _ b2 8 (by norm_num; omega) (by norm_num; omega)]

/-- The 24-bit value of four sextets, arithmetically. -/
theorem sextets_value (s0 s1 s2 s3 : Nat) (h1 : s1 < 64) (h2 : s2 < 64) (h3 : s3 < 64) :
    s0 <<< 18 ||| s1 <<< 12 ||| s2 <<< 6 ||| s3 =
      s0 * 262144 + s1 * 4096 + s2 * 64 + s3 := by
  simp only [Nat.shiftLeft_eq]
  rw [or_eq_add_of_dvd (s0 * 2 ^ 18) (s1 * 2 ^ 12) 18 (by norm_num) (by norm_num; omega)]
  rw [or_eq_add_of_dvd _ (s2 * 2 ^ 6) 12 (by norm_num; omega) (by norm_num; omega)]
  rw [or_eq_add_of_dvd _ s3 6 (by norm_num; omega) (by norm_num; omega)]

/-- The character loop on four alphabet characters: four sextets, nothing else read. -/
theorem quantumScan_four (total si : Nat) (i0 i1 i2 i3 : Nat) (h0 : i0 < 64)
    (h1 : i1 < 64) (h2 : i2 < 64) (h3 : i3 < 64) (rest : List Byte) :
    quantumScan total (encodeAt i0 :: encodeAt i1 :: encodeAt i2 :: encodeAt i3 :: rest)
        si 0 [] =
      .filled rest (si + 4)
        [decodeMap (encodeAt i0), decodeMap (encodeAt i1), decodeMap (encodeAt i2),
         decodeMap (encodeAt i3)] 4 none := by
  have e0 := (decodeMap_encodeAt i0 h0).1
  have e1 := (decodeMap_encodeAt i1 h1).1
  have e2 := (decodeMap_encodeAt i2 h2).1
  have e3 := (decodeMap_encodeAt i3 h3).1
  cases rest with
  | nil => simp [quantumScan, e0, e1, e2, e3]
  | cons c rest => simp [quantumScan, e0, e1, e2, e3]

/-- The character loop on two alphabet characters and `==` at the end of the input. -/
theorem quantumScan_two_pad (total si : Nat) (i0 i1 : Nat) (h0 : i0 < 64) (h1 : i1 < 64) :
    quantumScan total [encodeAt i0, encodeAt i1, padChar, padChar] si 0 [] =
      .filled [] (si + 4) [decodeMap (encodeAt i0), decodeMap (encodeAt i1)] 2 none := by
  have e0 := (decodeMap_encodeAt i0 h0).1
  have e1 := (decodeMap_encodeAt i1 h1).1
  have hp : ¬ (padChar = 10 ∨ padChar = 13) := by decide
  simp [quantumScan, skipNewlines, e0, e1, decodeMap_padChar, hp]

/-- The character loop on three alphabet characters and `=` at the end of the input. -/
theorem quantumScan_three_pad (total si : Nat) (i0 i1 i2 : Nat) (h0 : i0 < 64)
    (h1 : i1 < 64) (h2 : i2 < 64) :
    quantumScan total [encodeAt i0, encodeAt i1, encodeAt i2, padChar] si 0 [] =
      .filled [] (si + 4)
        [decodeMap (encodeAt i0), decodeMap (encodeAt i1), decodeMap (encodeAt i2)] 3
        none := by
  have e0 := (decodeMap_encodeAt i0 h0).1
  have e1 := (decodeMap_encodeAt i1 h1).1
  have e2 := (decodeMap_encodeAt i2 h2).1
  have hp : ¬ (padChar = 10 ∨ padChar = 13) := by decide
  simp [quantumScan, skipNewlines, e0, e1, e2, decodeMap_padChar, hp]

theorem byte_ofNat_eq (x : Nat) (b : Byte) (h : x % 256 = b.val) :
    (Fin.ofNat x : Byte) = b := by
  apply Fin.ext
  show x % 256 = b.val
  exact h

/-- One full group: `decodeQuantum` gives back the three bytes that were encoded. -/
theorem decodeQuantum_full (total si : Nat) (b0 b1 b2 : Byte) (rest : List Byte) :
    decodeQuantum total
        (encodeAt ((b0.val <<< 16 ||| b1.val <<< 8 ||| b2.val) >>> 18 &&& 0x3F) ::
         encodeAt ((b0.val <<< 16 ||| b1.val <<< 8 ||| b2.val) >>> 12 &&& 0x3F) ::
         encodeAt ((b0.val <<< 16 ||| b1.val <<< 8 ||| b2.val) >>> 6 &&& 0x3F) ::
         encodeAt ((b0.val <<< 16 ||| b1.val <<< 8 ||| b2.val) &&& 0x3F) :: rest) si =
      (rest, si + 4, [b0, b1, b2], none) := by
  have hb0 := b0.isLt
  have hb1 := b1.isLt
  have hb2 := b2.isLt
  rw [group_value b0.val b1.val b2.val hb1 hb2]
  simp only [and_63, Nat.shiftRight_eq_div_pow]
  generalize hV : b0.val * 65536 + b1.val * 256 + b2.val = V
  have m0 : V / 2 ^ 18 % 64 < 64 := Nat.mod_lt _ (by norm_num)
  have m1 : V / 2 ^ 12 % 64 < 64 := Nat.mod_lt _ (by norm_num)
  have m2 : V / 2 ^ 6 % 64 < 64 := Nat.mod_lt _ (by norm_num)
  have m3 : V % 64 < 64 := Nat.mod_lt _ (by norm_num)
  unfold decodeQuantum
  rw [quantumScan_four total si _ _ _ _ m0 m1 m2 m3 rest]
  simp only [List.getD_cons_zero, List.getD_cons_succ, (decodeMap_encodeAt _ m0).2,
    (decodeMap_encodeAt _ m1).2, (decodeMap_encodeAt _ m2).2, (decodeMap_encodeAt _ m3).2]
  rw [sextets_value _ _ _ _ m1 m2 m3]
  simp only [Nat.shiftRight_eq_div_pow]
  have k0 : (V / 2 ^ 18 % 64 * 262144 + V / 2 ^ 12 % 64 * 4096 + V / 2 ^ 6 % 64 * 64 +
      V % 64) / 2 ^ 16 % 256 = b0.val := by norm_num; omega
  have k1 : (V / 2 ^ 18 % 64 * 262144 + V / 2 ^ 12 % 64 * 4096 + V / 2 ^ 6 % 64 * 64 +
      V % 64) / 2 ^ 8 % 256 = b1.val := by norm_num; omega
  have k2 : (V / 2 ^ 18 % 64 * 262144 + V / 2 ^ 12 % 64 * 4096 + V / 2 ^ 6 % 64 * 64 +
      V % 64) / 2 ^ 0 % 256 = b2.val := by norm_num; omega
  rw [byte_ofNat_eq _ b0 k0, byte_ofNat_eq _ b1 k1, byte_ofNat_eq _ b2 k2]
  rfl

/-- A final group of one byte: `decodeQuantum` reads the padding and gives the byte back. -/
theorem decodeQuantum_one (total si : Nat) (b0 : Byte) :
    decodeQuantum total
        [encodeAt ((b0.val <<< 16) >>> 18 &&& 0x3F),
         encodeAt ((b0.val <<< 16) >>> 12 &&& 0x3F), padChar, padChar] si =
      ([], si + 4, [b0], none) := by
  have hb0 := b0.isLt
  simp only [and_63, Nat.shiftRight_eq_div_pow, Nat.shiftLeft_eq]
  generalize hV : b0.val * 2 ^ 16 = V
  have m0 : V / 2 ^ 18 % 64 < 64 := Nat.mod_lt _ (by norm_num)
  have m1 : V / 2 ^ 12 % 64 < 64 := Nat.mod_lt _ (by norm_num)
  unfold decodeQuantum
  rw [quantumScan_two_pad total si _ _ m0 m1]
  simp only [List.getD_cons_zero, List.getD_cons_succ, List.getD_nil,
    (decodeMap_encodeAt _ m0).2, (decodeMap_encodeAt _ m1).2]
  have z : ((0 : Byte) : Nat) = 0 := rfl
  rw [z, sextets_value _ _ 0 0 m1 (by norm_num) (by norm_num)]
  simp only [Nat.shiftRight_eq_div_pow]
  have k0 : (V / 2 ^ 18 % 64 * 262144 + V / 2 ^ 12 % 64 * 4096 + 0 * 64 + 0) / 2 ^ 16 % 256
      = b0.val := by norm_num at hV ⊢; omega
  rw [byte_ofNat_eq _ b0 k0]
  rfl

/-- A final group of two bytes: `decodeQuantum` reads the padding and gives them back. -/
theorem decodeQuantum_two (total si : Nat) (b0 b1 : Byte) :
    decodeQuantum total
        [encodeAt ((b0.val <<< 16 ||| b1.val <<< 8) >>> 18 &&& 0x3F),
         encodeAt ((b0.val <<< 16 ||| b1.val <<< 8) >>> 12 &&& 0x3F),
         encodeAt ((b0.val <<< 16 ||| b1.val <<< 8) >>> 6 &&& 0x3F), padChar] si =
      ([], si + 4, [b0, b1], none) := by
  have hb0 := b0.isLt
  have hb1 := b1.isLt
  have hval : b0.val <<< 16 ||| b1.val <<< 8 = b0.val * 65536 + b1.val * 256 := by
    simp only [Nat.shiftLeft_eq]
    rw [or_eq_add_of_dvd (b0.val * 2 ^ 16) (b1.val * 2 ^ 8) 16 (by norm_num)
      (by norm_num; omega)]
  rw [hval]
  simp only [and_63, Nat.shiftRight_eq_div_pow]
  generalize hV : b0.val * 65536 + b1.val * 256 = V
  have m0 : V / 2 ^ 18 % 64 < 64 := Nat.mod_lt _ (by norm_num)
  have m1 : V / 2 ^ 12 % 64 < 64 := Nat.mod_lt _ (by norm_num)
  have m2 : V / 2 ^ 6 % 64 < 64 := Nat.mod_lt _ (by norm_num)
  unfold decodeQuantum
  rw [quantumScan_three_pad total si _ _ _ m0 m1 m2]
  simp only [List.getD_cons_zero, List.getD_cons_succ, List.getD_nil,
    (decodeMap_encodeAt _ m0).2, (decodeMap_encodeAt _ m1).2, (decodeMap_encodeAt _ m2).2]
  have z : ((0 : Byte) : Nat) = 0 := rfl
  rw [z, sextets_value _ _ _ 0 m1 m2 (by norm_num)]
  simp only [Nat.shiftRight_eq_div_pow]
  have k0 : (V / 2 ^ 18 % 64 * 262144 + V / 2 ^ 12 % 64 * 4096 + V / 2 ^ 6 % 64 * 64 + 0)
      / 2 ^ 16 % 256 = b0.val := by norm_num; omega
  have k1 : (V / 2 ^ 18 % 64 * 262144 + V / 2 ^ 12 % 64 * 4096 + V / 2 ^ 6 % 64 * 64 + 0)
      / 2 ^ 8 % 256 = b1.val := by norm_num; omega
  rw [byte_ofNat_eq _ b0 k0, byte_ofNat_eq _ b1 k1]
  rfl

/-- The decoding loop gives back what was encoded, for any start offset and any fuel that
covers one turn per source byte. -/
theorem base64DecodeLoop_encode (total : Nat) (b : List Byte) :
    ∀ (fuel si : Nat), b.length ≤ fuel →
      base64DecodeLoop total fuel (base64EncodeBytes b) si = (b, none) := by
  induction b using base64EncodeBytes.induct with
  | case1 =>
    intro fuel si _
    cases fuel <;> rfl
  | case2 b0 =>
    intro fuel si hf
    obtain ⟨f, rfl⟩ : ∃ f, fuel = f + 1 := ⟨fuel - 1, by simp at hf; omega⟩
    simp only [base64EncodeBytes, base64DecodeLoop, decodeQuantum_one]
    cases f <;> rfl
  | case3 b0 b1 =>
    intro fuel si hf
    obtain ⟨f, rfl⟩ : ∃ f, fuel = f + 1 := ⟨fuel - 1, by simp at hf; omega⟩
    simp only [base64EncodeBytes, base64DecodeLoop, decodeQuantum_two]
    cases f <;> rfl
  | case4 b0 b1 b2 rest ih =>
    intro fuel si hf
    obtain ⟨f, rfl⟩ : ∃ f, fuel = f + 1 := ⟨fuel - 1, by simp at hf; omega⟩
    have hf2 : rest.length ≤ f := by simp at hf; omega
    simp only [base64EncodeBytes, base64DecodeLoop, decodeQuantum_full, ih f (si + 4) hf2]
    rfl

theorem base64EncodeBytes_length (b : List Byte) :
    (base64EncodeBytes b).length = (b.length + 2) / 3 * 4 := by
  induction b using base64EncodeBytes.induct with
  | case1 => rfl
  | case2 b0 => simp [base64EncodeBytes]
  | case3 b0 b1 => simp [base64EncodeBytes]
  | case4 b0 b1 b2 rest ih =>
    simp only [base64EncodeBytes, List.length_cons, ih]
    omega

/-- The encoder of `Base64Encoding` returns exactly the characters `Encode` writes. -/
theorem Base64Encoding_encoder (b : List Byte) :
    Base64Encoding.1 b = base64EncodeBytes b := by
  simp [Base64Encoding, base64Encode, make, base64EncodedLen, base64EncodeBytes_length]

/-- The decoder of `Base64Encoding` inverts its encoder. -/
theorem Base64Encoding_decoder_encoder (b : List Byte) :
    Base64Encoding.2 (Base64Encoding.1 b) = (b, none) := by
  rw [Base64Encoding_encoder]
  have hfuel : b.length ≤ (base64EncodeBytes b).length := by
    rw [base64EncodeBytes_length]; omega
  simp [Base64Encoding, base64Decode, base64DecodeLoop_encode _ b _ 0 hfuel]

/-! ## Helper lemmas: the base64 decoding loop always has enough fuel -/

/-- Skipping newlines never lengthens the unread input. -/
theorem skipNewlines_length (l : List Byte) :
    ∀ si, (skipNewlines l si).1.length ≤ l.length := by
  induction l with
  | nil => intro si; simp [skipNewlines]
  | cons c rest ih =>
    intro si
    unfold skipNewlines
    split_ifs
    · exact Nat.le_succ_of_le (ih _)
    · exact Nat.le_refl _

/-- The character loop never lengthens the unread input, and shortens it when it starts
below four sextets on a non-empty input. -/
theorem quantumScan_unread (total : Nat) (l : List Byte) : ∀ si j dbuf,
    (quantumScan total l si j dbuf).unread.length ≤ l.length ∧
    (l ≠ [] → j < 4 → (quantumScan total l si j dbuf).unread.length < l.length) := by
  induction l with
  | nil =>
    intro si j dbuf
    refine ⟨?_, fun h => absurd rfl h⟩
    unfold quantumScan
    split_ifs <;> simp [QuantumScan.unread]
  | cons c rest ih =>
    intro si j dbuf
    by_cases hj : j ≥ 4
    · refine ⟨?_, fun _ h => absurd h (by omega)⟩
      unfold quantumScan
      simp [hj, QuantumScan.unread]
    · have key : (quantumScan total (c :: rest) si j dbuf).unread.length <
          (c :: rest).length := by
        unfold quantumScan
        simp only [hj, if_false]
        split_ifs
        · exact Nat.lt_succ_of_le (ih _ _ _).1
        · exact Nat.lt_succ_of_le (ih _ _ _).1
        · simp [QuantumScan.unread]
        · simp [QuantumScan.unread]
        · have h1 := skipNewlines_length rest (si + 1)
          split
          · simp [QuantumScan.unread]
          · rename_i c2 rest2 si2 heq
            rw [heq] at h1
            split_ifs
            · simp [QuantumScan.unread] at h1 ⊢; omega
            · have h2 := skipNewlines_length rest2 (si2 + 1)
              split
              · simp [QuantumScan.unread]
              · rename_i r3 si3 _ heq2
                rw [heq2] at h2
                simp [QuantumScan.unread] at h1 h2 ⊢; omega
        · have h1 := skipNewlines_length rest (si + 1)
          split
          · simp [QuantumScan.unread]
          · rename_i r3 si3 _ heq2
            rw [heq2] at h1
            simp [QuantumScan.unread] at h1 ⊢; omega
      exact ⟨Nat.le_of_lt key, fun _ _ => key⟩

/-- Every call of `decodeQuantum` on a non-empty input reads at least one byte. -/
theorem decodeQuantum_unread (total : Nat) (c : Byte) (rest : List Byte) (si : Nat) :
    (decodeQuantum total (c :: rest) si).1.length < (c :: rest).length := by
  have h := (quantumScan_unread total (c :: rest) si 0 []).2 (by simp) (by norm_num)
  unfold decodeQuantum
  split
  · rename_i heq; rw [heq] at h; exact h
  · rename_i heq; rw [heq] at h; exact h

/-- The decoding loop does not depend on the fuel once it covers the input length, so the
fuel `len(src)` that `base64Decode` passes never cuts the loop short. -/
theorem base64DecodeLoop_fuel (total : Nat) : ∀ (fuel1 fuel2 : Nat) (src : List Byte)
    (si : Nat), src.length ≤ fuel1 → src.length ≤ fuel2 →
      base64DecodeLoop total fuel1 src si = base64DecodeLoop total fuel2 src si := by
  intro fuel1
  induction fuel1 with
  | zero =>
    intro fuel2 src si h1 _
    have hnil : src = [] := List.length_eq_zero.mp (Nat.le_zero.mp h1)
    subst hnil
    cases fuel2 <;> rfl
  | succ f1 ih =>
    intro fuel2 src si h1 h2
    cases src with
    | nil => cases fuel2 <;> rfl
    | cons c rest =>
      obtain ⟨f2, rfl⟩ : ∃ f, fuel2 = f + 1 := ⟨fuel2 - 1, by simp at h2; omega⟩
      have hlt := decodeQuantum_unread total c rest si
      unfold base64DecodeLoop
      rcases hq : decodeQuantum total (c :: rest) si with ⟨r, nsi, out, _ | err⟩
      · rw [hq] at hlt
        have e := ih f2 r nsi (by simp at hlt h1; omega) (by simp at hlt h2; omega)
        simp only [e]
      · rfl

/-! ## The model against the assertions of generator_test.go -/

set_option maxRecDepth 1000000 in
/-- The digest of `abc`, the first test vector of FIPS 180-4 for SHA-256. -/
theorem Sum256_abc :
    Sum256 (strBytes "abc") =
      [0xba, 0x78, 0x16, 0xbf, 0x8f, 0x01, 0xcf, 0xea, 0x41, 0x41, 0x40, 0xde, 0x5d, 0xae,
       0x22, 0x23, 0xb0, 0x03, 0x61, 0xa3, 0x96, 0x17, 0x7a, 0x9c, 0xb4, 0x10, 0xff, 0x61,
       0xf2, 0x00, 0x15, 0xad] := by
  decide

/-- The hex codec case of the test: the key is the hex string the test expects. -/
theorem test_hex_key :
    (NewGenerator zeroEntropy [WithRand (some testKeyRand),
      WithEncoding (some HexEncoding.1) (some HexEncoding.2)]).GenerateKey
      = .ok (strBytes "746573746b65796c656e6774685f3136", none) := rfl

/-- The base64 codec case of the test. -/
theorem test_base64_key :
    (NewGenerator zeroEntropy [WithRand (some testKeyRand),
      WithEncoding (some Base64Encoding.1) (some Base64Encoding.2)]).GenerateKey
      = .ok (strBytes "dGVzdGtleWxlbmd0aF8xNg==", none) := rfl

set_option maxRecDepth 1000000 in
/-- The HMAC-SHA256 case of the test: key and HMAC as the test expects them, and the key
verifies. -/
theorem test_hmac_hex_key :
    (hmacHexGenerator (-1) (-1)).GenerateKey =
      .ok (strBytes
        "746573746b65796c656e6774685f313642876f7915ca22838f7718a18c072652a15d42f783afd2a46553c6d7e58a73fa",
        none) ∧
    (hmacHexGenerator (-1) (-1)).VerifySignature (strBytes
        "746573746b65796c656e6774685f313642876f7915ca22838f7718a18c072652a15d42f783afd2a46553c6d7e58a73fa")
      = .ok true :=
  ⟨rfl, rfl⟩

set_option maxRecDepth 1000000 in
/-- The capped HMAC case of the test (prefix length 12 on both sides). -/
theorem test_hmac_prefix_key :
    (hmacHexGenerator 12 12).GenerateKey =
      .ok (strBytes "746573746b65796c656e6774685f313642876f7915ca22838f7718a1", none) ∧
    (hmacHexGenerator 12 12).VerifySignature
        (strBytes "746573746b65796c656e6774685f313642876f7915ca22838f7718a1") = .ok true :=
  ⟨rfl, rfl⟩

set_option maxRecDepth 1000000 in
/-- The shorter-prefix case of the test (signer 12, verifier 10): the key is rejected. -/
theorem test_hmac_shorter_prefix :
    (hmacHexGenerator 12 10).GenerateKey =
      .ok (strBytes "746573746b65796c656e6774685f313642876f7915ca22838f7718a1", none) ∧
    (hmacHexGenerator 12 10).VerifySignature
        (strBytes "746573746b65796c656e6774685f313642876f7915ca22838f7718a1") = .ok false :=
  ⟨rfl, rfl⟩

/-! ## The claims of the specification -/

/-- C1 (signed round trip): when the generating generator's rand returns exactly
`keyLength` bytes without error, its signer is `HmacSigner h k p`, and the verifying
generator has the same `keyLength`, a decoder inverting the encoder and the verifier
`HmacVerifier h k p` (any integer `p`), then `GenerateKey` succeeds and `VerifySignature`
returns true on the generated key.  Taking the same generator for both gives the
single-generator case. -/
theorem signed_round_trip (g1 g2 : Generator) (r : Rand) (enc : Encoder) (dec : Decoder)
    (h : HashFunc) (k : List Byte) (p : Int)
    (hr : g1.rand = some r)
    (hrand : (r g1.keyLength).2 = none ∧ ((r g1.keyLength).1.length : Int) = g1.keyLength)
    (he : g1.encoder = some enc) (hs : g1.signer = some (HmacSigner h k p))
    (hk : g2.keyLength = g1.keyLength) (hd : g2.decoder = some dec)
    (hv : g2.verifier = some (HmacVerifier h k p))
    (hcodec : ∀ b, dec (enc b) = (b, none)) :
    ∃ key, g1.GenerateKey = .ok (key, none) ∧ g2.VerifySignature key = .ok true := by
  obtain ⟨herr, hlen⟩ := hrand
  have hres : r g1.keyLength = ((r g1.keyLength).1, none) := by rw [← herr]
  refine ⟨enc ((r g1.keyLength).1 ++ (HmacSigner h k p (r g1.keyLength).1).1), ?_, ?_⟩
  · exact GenerateKey_of_success g1 r (HmacSigner h k p) enc _ _ hr hres hs rfl he
  · rw [VerifySignature_of_decoded g2 dec (HmacVerifier h k p) _ _ (r g1.keyLength).1.length
      hd (hcodec _) (by rw [hk, hlen]) (by simp) hv]
    simp only [List.take_left', List.drop_left', HmacVerifier_HmacSigner]

/-- Witness for C1: the HMAC-SHA256 hex generator of the test with prefix length 12 on
both sides. -/
theorem signed_round_trip_witness :
    ∃ key, (hmacHexGenerator 12 12).GenerateKey = .ok (key, none) ∧
      (hmacHexGenerator 12 12).VerifySignature key = .ok true :=
  signed_round_trip (hmacHexGenerator 12 12) (hmacHexGenerator 12 12) testKeyRand
    HexEncoding.1 HexEncoding.2 sha256New testSigningKey 12 rfl ⟨rfl, by decide⟩ rfl rfl rfl
    rfl rfl HexEncoding_decoder_encoder

/-- C2 (short input): when decoding succeeds with fewer than `keyLength` bytes,
`VerifySignature` does not return false: a slice expression panics with a bounds error
before the verifier is called. -/
theorem VerifySignature_short_input_panics (g : Generator) (dec : Decoder)
    (key raw : List Byte) (hd : g.decoder = some dec) (hraw : dec key = (raw, none))
    (hshort : (raw.length : Int) < g.keyLength) :
    g.VerifySignature key = .error Panic.sliceBounds := by
  have hb : ¬ ((0 : Int) ≤ g.keyLength ∧ g.keyLength ≤ (raw.length : Int)) := by omega
  simp only [Generator.VerifySignature, hd, hraw, sliceTo, hb, if_false]

/-- Witness for C2: the default generator with `NoopVerifier` on the 5-byte key `short`. -/
theorem VerifySignature_short_input_panics_witness :
    (NewGenerator zeroEntropy [WithVerifier (some NoopVerifier)]).VerifySignature
      (strBytes "short") = .error Panic.sliceBounds :=
  VerifySignature_short_input_panics
    (NewGenerator zeroEntropy [WithVerifier (some NoopVerifier)]) NoopEncoding.2
    (strBytes "short") (strBytes "short") rfl rfl (by decide)

/-- C3 (defaults): `NewGenerator` without options uses key length 16, `NoopSigner` and
`NoopEncoding`, but leaves the verifier nil, so `VerifySignature` on a key of at least 16
bytes panics with a nil function call instead of returning true. -/
theorem NewGenerator_default_verifier_nil (read : EntropySource) (key : List Byte)
    (hlen : 16 ≤ key.length) :
    (NewGenerator read []).keyLength = 16 ∧
    (NewGenerator read []).signer = some NoopSigner ∧
    (NewGenerator read []).encoder = some NoopEncoding.1 ∧
    (NewGenerator read []).decoder = some NoopEncoding.2 ∧
    (NewGenerator read []).verifier = none ∧
    (NewGenerator read []).VerifySignature key = .error Panic.nilFunc := by
  refine ⟨rfl, rfl, rfl, rfl, rfl, ?_⟩
  have hb : (0 : Int) ≤ 16 ∧ (16 : Int) ≤ (key.length : Int) := by omega
  simp only [Generator.VerifySignature, NewGenerator, List.foldl_nil, NoopEncoding, sliceTo,
    sliceFrom, DefaultKeyLength, hb, and_self, if_true]

/-- Witness for C3: the default generator on the 16-byte key `testkeylength_16`. -/
theorem NewGenerator_default_verifier_nil_witness :
    (NewGenerator zeroEntropy []).verifier = none ∧
    (NewGenerator zeroEntropy []).VerifySignature (strBytes "testkeylength_16") =
      .error Panic.nilFunc :=
  ⟨(NewGenerator_default_verifier_nil zeroEntropy (strBytes "testkeylength_16")
      (by decide)).2.2.2.2.1,
   (NewGenerator_default_verifier_nil zeroEntropy (strBytes "testkeylength_16")
      (by decide)).2.2.2.2.2⟩

/-- C4 (split at the random-byte boundary): with a configured verifier `v`, key length
`n`, and a key that decodes without error to `raw` of length at least `n`,
`VerifySignature` returns exactly `v raw[0:n] raw[n:]`. -/
theorem VerifySignature_splits_at_keyLength (g : Generator) (dec : Decoder) (v : Verifier)
    (key raw : List Byte) (n : Nat) (hd : g.decoder = some dec)
    (hraw : dec key = (raw, none)) (hk : g.keyLength = (n : Int)) (hn : n ≤ raw.length)
    (hv : g.verifier = some v) :
    g.VerifySignature key = .ok (v (raw.take n) (raw.drop n)) :=
  VerifySignature_of_decoded g dec v key raw n hd hraw hk hn hv

/-- Witness for C4: the HMAC-SHA256 hex generator of the test with prefix length 12 on the
key the test expects, 16 + 12 bytes once decoded. -/
theorem VerifySignature_splits_at_keyLength_witness :
    (hmacHexGenerator 12 12).VerifySignature
        (strBytes "746573746b65796c656e6774685f313642876f7915ca22838f7718a1")
      = .ok (HmacVerifier sha256New testSigningKey 12
          ((strBytes "testkeylength_16" ++
            [0x42, 0x87, 0x6f, 0x79, 0x15, 0xca, 0x22, 0x83, 0x8f, 0x77, 0x18, 0xa1]).take 16)
          ((strBytes "testkeylength_16" ++
            [0x42, 0x87, 0x6f, 0x79, 0x15, 0xca, 0x22, 0x83, 0x8f, 0x77, 0x18, 0xa1]).drop 16)) :=
  VerifySignature_splits_at_keyLength (hmacHexGenerator 12 12) HexEncoding.2
    (HmacVerifier sha256New testSigningKey 12)
    (strBytes "746573746b65796c656e6774685f313642876f7915ca22838f7718a1")
    (strBytes "testkeylength_16" ++
            [0x42, 0x87, 0x6f, 0x79, 0x15, 0xca, 0x22, 0x83, 0x8f, 0x77, 0x18, 0xa1]) 16
    rfl rfl rfl (by decide) rfl

set_option maxRecDepth 1000000 in
/-- C5, as stated, fails: with HMAC-SHA256, signer prefix length 0 and verifier prefix
length -1 (so the verifier's is the smaller and the two differ) neither side truncates,
and the generated key verifies. -/
theorem truncation_mismatch_counterexample :
    ((-1 : Int) < 0) ∧
    (hmacHexGenerator 0 (-1)).GenerateKey =
      .ok (strBytes
        "746573746b65796c656e6774685f313642876f7915ca22838f7718a18c072652a15d42f783afd2a46553c6d7e58a73fa",
        none) ∧
    (hmacHexGenerator 0 (-1)).VerifySignature (strBytes
        "746573746b65796c656e6774685f313642876f7915ca22838f7718a18c072652a15d42f783afd2a46553c6d7e58a73fa")
      = .ok true :=
  ⟨by decide, rfl, rfl⟩

/-- C5, amended (truncation mismatch): let the HMAC of the random part have `n` bytes.  If
the signer's prefix length `P1` and the verifier's `P2` differ and at least one of them
lies strictly between 0 and `n`, then `GenerateKey` succeeds and `VerifySignature` returns
false on the generated key.  This covers `0 < P2 < P1` with `P2 < n`, as in the test
(`P1 = 12`, `P2 = 10`, `n = 32`). -/
theorem truncation_mismatch_detected (g1 g2 : Generator) (r : Rand) (enc : Encoder)
    (dec : Decoder) (h : HashFunc) (k : List Byte) (P1 P2 : Int) (n : Nat)
    (hr : g1.rand = some r)
    (hrand : (r g1.keyLength).2 = none ∧ ((r g1.keyLength).1.length : Int) = g1.keyLength)
    (he : g1.encoder = some enc) (hs : g1.signer = some (HmacSigner h k P1))
    (hk : g2.keyLength = g1.keyLength) (hd : g2.decoder = some dec)
    (hv : g2.verifier = some (HmacVerifier h k P2))
    (hcodec : ∀ b, dec (enc b) = (b, none))
    (hn : (h.hmacSum k (r g1.keyLength).1).length = n)
    (hne : P1 ≠ P2)
    (hin : (0 < P1 ∧ P1 < (n : Int)) ∨ (0 < P2 ∧ P2 < (n : Int))) :
    ∃ key, g1.GenerateKey = .ok (key, none) ∧ g2.VerifySignature key = .ok false := by
  obtain ⟨herr, hlen⟩ := hrand
  have hres : r g1.keyLength = ((r g1.keyLength).1, none) := by rw [← herr]
  refine ⟨enc ((r g1.keyLength).1 ++ (HmacSigner h k P1 (r g1.keyLength).1).1), ?_, ?_⟩
  · exact GenerateKey_of_success g1 r (HmacSigner h k P1) enc _ _ hr hres hs rfl he
  · rw [VerifySignature_of_decoded g2 dec (HmacVerifier h k P2) _ _ (r g1.keyLength).1.length
      hd (hcodec _) (by rw [hk, hlen]) (by simp) hv]
    simp only [List.take_left', List.drop_left']
    rw [HmacVerifier_length_mismatch]
    rw [HmacSigner_length, hn]
    split_ifs <;> omega

set_option maxRecDepth 1000000 in
/-- Witness for C5 amended: the test's case, HMAC-SHA256 (32 bytes) with signer prefix 12
and verifier prefix 10. -/
theorem truncation_mismatch_detected_witness :
    ∃ key, (hmacHexGenerator 12 10).GenerateKey = .ok (key, none) ∧
      (hmacHexGenerator 12 10).VerifySignature key = .ok false :=
  truncation_mismatch_detected (hmacHexGenerator 12 10) (hmacHexGenerator 12 10) testKeyRand
    HexEncoding.1 HexEncoding.2 sha256New testSigningKey 12 10 32 rfl ⟨rfl, by decide⟩ rfl
    rfl rfl rfl rfl HexEncoding_decoder_encoder rfl (by decide) (Or.inl (by decide))

/-- C6 (key byte layout): when rand returns `res` without error and the signer returns
`sig` for `res` without error, `GenerateKey` returns the encoder applied to `res ++ sig`
and no error: random bytes first, the signature computed over the random bytes only. -/
theorem GenerateKey_layout (g : Generator) (r : Rand) (s : Signer) (enc : Encoder)
    (res sig : List Byte) (hr : g.rand = some r) (hres : r g.keyLength = (res, none))
    (hs : g.signer = some s) (hsig : s res = (sig, none)) (he : g.encoder = some enc) :
    g.GenerateKey = .ok (enc (res ++ sig), none) :=
  GenerateKey_of_success g r s enc res sig hr hres hs hsig he

set_option maxRecDepth 1000000 in
/-- Witness for C6: the HMAC-SHA256 hex generator of the test without truncation. -/
theorem GenerateKey_layout_witness :
    (hmacHexGenerator (-1) (-1)).GenerateKey =
      .ok (HexEncoding.1 (strBytes "testkeylength_16" ++
        [0x42, 0x87, 0x6f, 0x79, 0x15, 0xca, 0x22, 0x83, 0x8f, 0x77, 0x18, 0xa1, 0x8c,
         0x07, 0x26, 0x52, 0xa1, 0x5d, 0x42, 0xf7, 0x83, 0xaf, 0xd2, 0xa4, 0x65, 0x53,
         0xc6, 0xd7, 0xe5, 0x8a, 0x73, 0xfa]),
        none) :=
  GenerateKey_layout (hmacHexGenerator (-1) (-1)) testKeyRand
    (HmacSigner sha256New testSigningKey (-1)) HexEncoding.1 (strBytes "testkeylength_16")
    [0x42, 0x87, 0x6f, 0x79, 0x15, 0xca, 0x22, 0x83, 0x8f, 0x77, 0x18, 0xa1, 0x8c,
         0x07, 0x26, 0x52, 0xa1, 0x5d, 0x42, 0xf7, 0x83, 0xaf, 0xd2, 0xa4, 0x65, 0x53,
         0xc6, 0xd7, 0xe5, 0x8a, 0x73, 0xfa]
    rfl rfl rfl rfl rfl

/-- C7 (error propagation of GenerateKey): (1) when rand returns an error, `GenerateKey`
returns rand's bytes and that error, whatever the signer and the encoder are, nil
included, so neither is called; (2) when rand succeeds and the signer returns an error,
`GenerateKey` returns the random bytes and that error, whatever the encoder is, nil
included; (3) `GenerateKey` returns a non-nil error exactly when rand returns one, or rand
succeeds and the signer returns one. -/
theorem GenerateKey_error_propagation (g : Generator) :
    (∀ (r : Rand) (res : List Byte) (err : GoError),
      g.rand = some r → r g.keyLength = (res, some err) →
        g.GenerateKey = .ok (res, some err) ∧
        ∀ (s : Option Signer) (e : Option Encoder),
          ({ g with signer := s, encoder := e } : Generator).GenerateKey
            = .ok (res, some err)) ∧
    (∀ (r : Rand) (s : Signer) (res sig : List Byte) (err : GoError),
      g.rand = some r → r g.keyLength = (res, none) →
      g.signer = some s → s res = (sig, some err) →
        g.GenerateKey = .ok (res, some err) ∧
        ∀ (e : Option Encoder),
          ({ g with encoder := e } : Generator).GenerateKey = .ok (res, some err)) ∧
    ((∃ (res : List Byte) (err : GoError), g.GenerateKey = .ok (res, some err)) ↔
      ∃ r, g.rand = some r ∧
        ((r g.keyLength).2 ≠ none ∨
          ((r g.keyLength).2 = none ∧
            ∃ s, g.signer = some s ∧ (s (r g.keyLength).1).2 ≠ none))) := by
  refine ⟨?_, ?_, ?_⟩
  · intro r res err hr hres
    refine ⟨?_, ?_⟩
    · simp only [Generator.GenerateKey, hr, hres]
    · intro s e
      simp only [Generator.GenerateKey, hr, hres]
  · intro r s res sig err hr hres hs hsig
    refine ⟨?_, ?_⟩
    · simp only [Generator.GenerateKey, hr, hres, hs, hsig]
    · intro e
      simp only [Generator.GenerateKey, hr, hres, hs, hsig]
  · unfold Generator.GenerateKey
    cases hr : g.rand with
    | none => simp
    | some r =>
      rcases hres : r g.keyLength with ⟨res, _ | err⟩
      · cases hs : g.signer with
        | none => simp [hres]
        | some s =>
          rcases hsig : s res with ⟨sig, _ | serr⟩
          · cases he : g.encoder with
            | none => simp [hres, hsig]
            | some e => simp [hres, hsig]
          · simp [hres, hsig]
      · simp [hres]

/-- Witness for C7: a failing rand with a nil signer and a nil encoder returns the error
of rand, and a failing signer with a nil encoder returns the random bytes and the error of
the signer; nothing panics. -/
theorem GenerateKey_error_propagation_witness :
    ({ NewGenerator zeroEntropy [WithRand (some failingRand)] with
        signer := none, encoder := none } : Generator).GenerateKey
        = .ok ([], some (GoError.other "entropy")) ∧
    ({ NewGenerator zeroEntropy
          [WithRand (some testKeyRand), WithSigner (some failingSigner)] with
        encoder := none } : Generator).GenerateKey
        = .ok (strBytes "testkeylength_16", some (GoError.other "signing")) :=
  ⟨((GenerateKey_error_propagation
      (NewGenerator zeroEntropy [WithRand (some failingRand)])).1
      failingRand [] (GoError.other "entropy") rfl rfl).2 none none,
   ((GenerateKey_error_propagation
      (NewGenerator zeroEntropy
        [WithRand (some testKeyRand), WithSigner (some failingSigner)])).2.1
      testKeyRand failingSigner (strBytes "testkeylength_16") [] (GoError.other "signing")
      rfl rfl rfl rfl).2 none⟩

/-- C8 (decode failure): when the configured decoder returns an error on the key,
`VerifySignature` returns false and does not panic, whatever the verifier (nil included)
and the key length are, so the verifier is not consulted. -/
theorem VerifySignature_decode_error (g : Generator) (dec : Decoder) (key raw : List Byte)
    (err : GoError) (hd : g.decoder = some dec) (hraw : dec key = (raw, some err)) :
    g.VerifySignature key = .ok false ∧
    ∀ (v : Option Verifier) (n : Int),
      ({ g with verifier := v, keyLength := n } : Generator).VerifySignature key
        = .ok false := by
  refine ⟨?_, ?_⟩
  · simp only [Generator.VerifySignature, hd, hraw]
  · intro v n
    simp only [Generator.VerifySignature, hd, hraw]

/-- Witness for C8: an odd-length hex key on a hex generator whose verifier is nil. -/
theorem VerifySignature_decode_error_witness :
    (NewGenerator zeroEntropy
      [WithEncoding (some HexEncoding.1) (some HexEncoding.2)]).VerifySignature
      (strBytes "746") = .ok false :=
  (VerifySignature_decode_error
    (NewGenerator zeroEntropy [WithEncoding (some HexEncoding.1) (some HexEncoding.2)])
    HexEncoding.2 (strBytes "746") [116] GoError.ErrLength rfl rfl).1

/-- C9 (hex and identity codec round trip): for every byte sequence `b` the decoder of
`HexEncoding` applied to its encoder's output returns `b` and no error, and likewise for
`NoopEncoding`; the encoders are total functions, and `hex.Encode` writes exactly as many
bytes as the encoder allocated. -/
theorem hex_codec_round_trip (b : List Byte) :
    HexEncoding.2 (HexEncoding.1 b) = (b, none) ∧
    NoopEncoding.2 (NoopEncoding.1 b) = (b, none) ∧
    (hexEncodeBytes b).length = hexEncodedLen b.length :=
  ⟨HexEncoding_decoder_encoder b, rfl, hexEncodeBytes_length b⟩

/-- C10 (base64 codec round trip): for every byte sequence `b`, whatever its length modulo
3, the decoder of `Base64Encoding` applied to its encoder's output returns `b` and no
error; the encoder is a total function, and `Encode` writes exactly as many bytes as the
encoder allocated. -/
theorem base64_codec_round_trip (b : List Byte) :
    Base64Encoding.2 (Base64Encoding.1 b) = (b, none) ∧
    (base64EncodeBytes b).length = base64EncodedLen b.length :=
  ⟨Base64Encoding_decoder_encoder b, base64EncodeBytes_length b⟩


/-! ## Helper lemmas: malformed hex input -/

set_option maxRecDepth 100000 in
theorem reverseHexTable_invalid : ∀ c : Byte,
    reverseHexTable c > 0x0f ↔ isHexDigit c = false := by
  decide

/-- An input of odd length makes `hex.Decode` return an error. -/
theorem hexDecodeBytes_odd : ∀ src : List Byte,
    src.length % 2 = 1 → ∃ err, (hexDecodeBytes src).2 = some err
  | [] => fun h => by simp at h
  | [p] => fun _ => by
    unfold hexDecodeBytes
    split_ifs <;> exact ⟨_, rfl⟩
  | p :: q :: rest => fun h => by
    have h2 : rest.length % 2 = 1 := by simp at h; omega
    obtain ⟨err, he⟩ := hexDecodeBytes_odd rest h2
    unfold hexDecodeBytes
    simp only
    split_ifs
    · exact ⟨_, rfl⟩
    · exact ⟨_, rfl⟩
    · exact ⟨err, he⟩

/-- An input that contains a byte that is no hexadecimal digit makes `hex.Decode` return
an error. -/
theorem hexDecodeBytes_invalid : ∀ src : List Byte,
    (∃ c ∈ src, reverseHexTable c > 0x0f) → ∃ err, (hexDecodeBytes src).2 = some err
  | [] => fun ⟨c, hc, _⟩ => by simp at hc
  | [p] => fun _ => by
    unfold hexDecodeBytes
    split_ifs <;> exact ⟨_, rfl⟩
  | p :: q :: rest => fun ⟨c, hc, hbad⟩ => by
    unfold hexDecodeBytes
    simp only
    split_ifs with ha hb
    · exact ⟨_, rfl⟩
    · exact ⟨_, rfl⟩
    · have hrest : ∃ c ∈ rest, reverseHexTable c > 0x0f := by
        simp only [List.mem_cons] at hc
        rcases hc with rfl | rfl | hc
        · exact absurd hbad ha
        · exact absurd hbad hb
        · exact ⟨c, hc, hbad⟩
      exact hexDecodeBytes_invalid rest hrest

/-- The error the decoder of `HexEncoding` returns is the error of `hex.Decode`. -/
theorem HexEncoding_decoder_error (src : List Byte) :
    (HexEncoding.2 src).2 = (hexDecodeBytes src).2 := rfl

/-- A decoder error makes `VerifySignature` return false. -/
theorem VerifySignature_of_decode_error (g : Generator) (dec : Decoder) (key : List Byte)
    (err : GoError) (hd : g.decoder = some dec) (herr : (dec key).2 = some err) :
    g.VerifySignature key = .ok false := by
  have hraw : dec key = ((dec key).1, some err) := by rw [← herr]
  simp only [Generator.VerifySignature, hd]
  rw [hraw]

/-! ## The claims of the specification, continued -/

/-- C11 (malformed hex is rejected): for every input of odd length and every input that
contains a byte that is not a hexadecimal digit, the decoder of `HexEncoding` returns an
error, and `VerifySignature` of every generator whose decoder it is returns false. -/
theorem malformed_hex_rejected (src : List Byte)
    (hbad : src.length % 2 = 1 ∨ ∃ c ∈ src, isHexDigit c = false) :
    (∃ err, (HexEncoding.2 src).2 = some err) ∧
    ∀ g : Generator, g.decoder = some HexEncoding.2 → g.VerifySignature src = .ok false := by
  have herr : ∃ err, (HexEncoding.2 src).2 = some err := by
    rw [HexEncoding_decoder_error]
    rcases hbad with hodd | ⟨c, hc, hdig⟩
    · exact hexDecodeBytes_odd src hodd
    · exact hexDecodeBytes_invalid src ⟨c, hc, (reverseHexTable_invalid c).mpr hdig⟩
  refine ⟨herr, ?_⟩
  intro g hd
  obtain ⟨err, he⟩ := herr
  exact VerifySignature_of_decode_error g HexEncoding.2 src err hd he

/-- Witness for C11: the even-length input `7g` with the non-digit `g`, on the hex
generator of the test. -/
theorem malformed_hex_rejected_witness :
    (HexEncoding.2 (strBytes "7g")).2 = some (GoError.InvalidByteError 103) ∧
    (hmacHexGenerator 12 12).VerifySignature (strBytes "7g") = .ok false :=
  ⟨rfl,
   (malformed_hex_rejected (strBytes "7g") (Or.inr ⟨103, by decide, by decide⟩)).2
     (hmacHexGenerator 12 12) rfl⟩

/-! ## Helper lemmas: digest sizes -/

/-- The HMAC has the digest size of the hash function. -/
theorem hmacSum_length (h : HashFunc) (n : Nat) (hsize : ∀ m, (h.Sum m).length = n)
    (k src : List Byte) : (h.hmacSum k src).length = n := by
  simp only [HashFunc.hmacSum, hsize]

theorem sha256Round_length (st : List Nat) (kw : Nat × Nat) :
    (sha256Round st kw).length = st.length := by
  unfold sha256Round
  split <;> rfl

theorem foldl_sha256Round_length (l : List (Nat × Nat)) :
    ∀ st : List Nat, (l.foldl sha256Round st).length = st.length := by
  induction l with
  | nil => intro st; rfl
  | cons kw l ih => intro st; rw [List.foldl_cons, ih, sha256Round_length]

theorem sha256Block_length (st : List Nat) (block : List Byte) :
    (sha256Block st block).length = st.length := by
  simp [sha256Block, foldl_sha256Round_length]

theorem sha256Blocks_length (n : Nat) :
    ∀ (m : List Byte) (st : List Nat), (sha256Blocks n m st).length = st.length := by
  induction n with
  | zero => intro m st; rfl
  | succ n ih => intro m st; rw [sha256Blocks, ih, sha256Block_length]

/-- The digest size of SHA-256 is 32 bytes. -/
theorem Sum256_length (m : List Byte) : (Sum256 m).length = 32 := by
  have h8 : (sha256Blocks ((sha256Pad m).length / 64) (sha256Pad m) sha256Init).length = 8 := by
    rw [sha256Blocks_length]; rfl
  have hflat : ∀ st : List Nat, (st.flatMap (fun w =>
      ([Fin.ofNat (w >>> 24), Fin.ofNat (w >>> 16), Fin.ofNat (w >>> 8), Fin.ofNat w] :
        List Byte))).length = 4 * st.length := by
    intro st
    induction st with
    | nil => rfl
    | cons w st ih => simp only [List.flatMap_cons, List.length_append, ih, List.length_cons,
        List.length_nil]; omega
  unfold Sum256
  simp only
  rw [hflat, h8]

/-- What the signer returns equals what the verifier compares the signature with. -/
theorem HmacVerifier_iff (h : HashFunc) (k : List Byte) (p : Int) (key sig : List Byte) :
    HmacVerifier h k p key sig = true ↔ sig = (HmacSigner h k p key).1 := by
  simp only [HmacVerifier, HmacSigner]
  by_cases hp : p > 0 ∧ p < ((h.hmacSum k key).length : Int)
  · have hq : ¬ (p ≤ 0 ∨ p ≥ ((h.hmacSum k key).length : Int)) := by omega
    simp only [hp, hq, and_self, if_true, if_false, beq_iff_eq, ConstantTimeCompare_eq_one]
    exact eq_comm
  · have hq : p ≤ 0 ∨ p ≥ ((h.hmacSum k key).length : Int) := by omega
    simp only [hp, hq, if_true, if_false, beq_iff_eq, ConstantTimeCompare_eq_one]
    exact eq_comm

/-- `HmacSigner` with a prefix length outside `(0, len)` returns the whole HMAC. -/
theorem HmacSigner_out_of_range (h : HashFunc) (k : List Byte) (p : Int) (src : List Byte)
    (hp : p ≤ 0 ∨ p ≥ ((h.hmacSum k src).length : Int)) :
    HmacSigner h k p src = (h.hmacSum k src, none) := by
  have hq : ¬ (p > 0 ∧ p < ((h.hmacSum k src).length : Int)) := by omega
  simp only [HmacSigner, hq, if_false]

/-- C15 (HMAC signature capping): for a hash function with digest size `n` and a prefix
length `p` with `0 < p < n`, `HmacSigner h k p` succeeds on every input and returns
exactly the first `p` bytes of the full HMAC that `HmacSigner h k (-1)` returns, so the
signature has length `p`. -/
theorem HmacSigner_capping (h : HashFunc) (n : Nat) (k src : List Byte) (p : Int)
    (hsize : ∀ m, (h.Sum m).length = n) (hp : 0 < p ∧ p < (n : Int)) :
    HmacSigner h k p src = ((HmacSigner h k (-1) src).1.take p.toNat, none) ∧
    ((HmacSigner h k p src).1.length : Int) = p := by
  have hlen := hmacSum_length h n hsize k src
  have hfull : HmacSigner h k (-1) src = (h.hmacSum k src, none) :=
    HmacSigner_out_of_range h k (-1) src (Or.inl (by decide))
  have hcap : HmacSigner h k p src = ((h.hmacSum k src).take p.toNat, none) := by
    have hq : p > 0 ∧ p < ((h.hmacSum k src).length : Int) := by rw [hlen]; omega
    simp only [HmacSigner, hq, and_self, if_true]
  refine ⟨by rw [hcap, hfull], ?_⟩
  rw [hcap]
  simp only [List.length_take, hlen]
  omega

set_option maxRecDepth 1000000 in
/-- Witness for C15: the test's case, SHA-256 with prefix length 12; the signature is the
12 bytes the test expects, so the key has 16 + 12 bytes before encoding. -/
theorem HmacSigner_capping_witness :
    HmacSigner sha256New testSigningKey 12 (strBytes "testkeylength_16") =
      ((HmacSigner sha256New testSigningKey (-1) (strBytes "testkeylength_16")).1.take 12,
        none) ∧
    (strBytes "testkeylength_16" ++
      (HmacSigner sha256New testSigningKey 12 (strBytes "testkeylength_16")).1).length
      = 16 + 12 :=
  ⟨(HmacSigner_capping sha256New 32 testSigningKey (strBytes "testkeylength_16") 12
      Sum256_length (by decide)).1,
   rfl⟩

/-- C18 (exact-match HMAC verification): `HmacVerifier h k p key signature` returns true
if and only if `signature` equals, byte for byte, what `HmacSigner h k p` returns for
`key`; so a signature of another length and a signature that differs in a byte are both
rejected. -/
theorem HmacVerifier_exact_match (h : HashFunc) (k : List Byte) (p : Int)
    (key signature : List Byte) :
    (HmacVerifier h k p key signature = true ↔ signature = (HmacSigner h k p key).1) ∧
    (signature.length ≠ (HmacSigner h k p key).1.length →
      HmacVerifier h k p key signature = false) ∧
    (∀ i : Nat, signature[i]? ≠ (HmacSigner h k p key).1[i]? →
      HmacVerifier h k p key signature = false) := by
  have hiff := HmacVerifier_iff h k p key signature
  refine ⟨hiff, ?_, ?_⟩
  · intro hne
    cases hv : HmacVerifier h k p key signature with
    | false => rfl
    | true => exact absurd (congrArg List.length (hiff.mp hv)) hne
  · intro i hne
    cases hv : HmacVerifier h k p key signature with
    | false => rfl
    | true => exact absurd (by rw [hiff.mp hv]) hne

/-- C19 (out-of-range prefix lengths): for a hash function with digest size `n` and a
prefix length `p` with `p ≤ 0` or `p ≥ n`, `HmacSigner h k p` is the same function as
`HmacSigner h k (-1)` and `HmacVerifier h k p` the same function as
`HmacVerifier h k (-1)`; hence a verifier with any out-of-range prefix length accepts what
a signer with any other out-of-range prefix length returns. -/
theorem Hmac_prefix_out_of_range (h : HashFunc) (n : Nat) (k : List Byte) (p : Int)
    (hsize : ∀ m, (h.Sum m).length = n) (hp : p ≤ 0 ∨ p ≥ (n : Int)) :
    HmacSigner h k p = HmacSigner h k (-1) ∧
    HmacVerifier h k p = HmacVerifier h k (-1) ∧
    ∀ (p2 : Int) (src : List Byte), (p2 ≤ 0 ∨ p2 ≥ (n : Int)) →
      HmacVerifier h k p2 src (HmacSigner h k p src).1 = true := by
  have hs : ∀ (q : Int), (q ≤ 0 ∨ q ≥ (n : Int)) → ∀ src,
      HmacSigner h k q src = (h.hmacSum k src, none) := by
    intro q hq src
    exact HmacSigner_out_of_range h k q src (by rw [hmacSum_length h n hsize]; exact hq)
  have hsig : HmacSigner h k p = HmacSigner h k (-1) := by
    funext src
    rw [hs p hp, hs (-1) (Or.inl (by decide))]
  refine ⟨hsig, ?_, ?_⟩
  · funext key sig
    have e1 := HmacVerifier_iff h k p key sig
    have e2 := HmacVerifier_iff h k (-1) key sig
    rw [hsig] at e1
    cases h1 : HmacVerifier h k p key sig <;> cases h2 : HmacVerifier h k (-1) key sig
    · rfl
    · exact absurd (e1.mpr (e2.mp h2)) (by simp [h1])
    · exact absurd (e2.mpr (e1.mp h1)) (by simp [h2])
    · rfl
  · intro p2 src hp2
    rw [HmacVerifier_iff, hs p hp, hs p2 hp2]

/-- Witness for C19: SHA-256 (digest size 32) with the out-of-range prefix length 32, and
verifier prefix length 0 against signer prefix length 32. -/
theorem Hmac_prefix_out_of_range_witness :
    HmacSigner sha256New testSigningKey 32 = HmacSigner sha256New testSigningKey (-1) ∧
    HmacVerifier sha256New testSigningKey 0 (strBytes "testkeylength_16")
      (HmacSigner sha256New testSigningKey 32 (strBytes "testkeylength_16")).1 = true :=
  ⟨(Hmac_prefix_out_of_range sha256New 32 testSigningKey 32 Sum256_length
      (Or.inr (by decide))).1,
   (Hmac_prefix_out_of_range sha256New 32 testSigningKey 32 Sum256_length
      (Or.inr (by decide))).2.2 0 (strBytes "testkeylength_16") (Or.inl (by decide))⟩

set_option maxRecDepth 1000000 in
/-- Witness for C18: with SHA-256 the verifier for prefix length 10 rejects the 12-byte
signature of the signer for prefix length 12, whose length differs from the 10 bytes the
matching signer returns. -/
theorem HmacVerifier_exact_match_witness :
    HmacVerifier sha256New testSigningKey 10 (strBytes "testkeylength_16")
      (HmacSigner sha256New testSigningKey 12 (strBytes "testkeylength_16")).1 = false :=
  (HmacVerifier_exact_match sha256New testSigningKey 10 (strBytes "testkeylength_16")
    (HmacSigner sha256New testSigningKey 12 (strBytes "testkeylength_16")).1).2.1
    (by decide)

/-! ## Helper lemmas: options -/

/-- A list of arguments evaluates to options exactly when every argument does. -/
theorem evalOptions_cons_ok (c : OptionCall) (rest : List OptionCall)
    (opts : List GeneratorOption) (h : evalOptions (c :: rest) = .ok opts) :
    ∃ o os, c.eval = .ok o ∧ evalOptions rest = .ok os ∧ opts = o :: os := by
  unfold evalOptions at h
  cases hc : c.eval with
  | error p => simp [hc] at h
  | ok o =>
    cases hr : evalOptions rest with
    | error p => simp [hc, hr] at h
    | ok os =>
      simp only [hc, hr, Except.ok.injEq] at h
      exact ⟨o, os, rfl, rfl, h.symm⟩

/-- When every evaluated option sets `field` to the value `f` extracts from its call, or
leaves it alone when `f` extracts nothing, then after all options `field` holds the value
of the last call `f` extracts something from, or its initial value. -/
theorem foldl_field_last {β : Type} (f : OptionCall → Option β) (field : Generator → β)
    (hset : ∀ c o g, c.eval = .ok o → field (o g) = (f c).getD (field g)) :
    ∀ (calls : List OptionCall) (opts : List GeneratorOption) (g0 : Generator),
      evalOptions calls = .ok opts →
      field (opts.foldl (fun g o => o g) g0) =
        ((calls.filterMap f).getLast?).getD (field g0) := by
  intro calls
  induction calls with
  | nil =>
    intro opts g0 h
    simp only [evalOptions, Except.ok.injEq] at h
    subst h
    rfl
  | cons c rest ih =>
    intro opts g0 h
    obtain ⟨o, os, hc, hr, rfl⟩ := evalOptions_cons_ok c rest opts h
    rw [List.foldl_cons, ih os (o g0) hr, hset c o g0 hc]
    cases hf : f c with
    | none => simp [List.filterMap_cons, hf]
    | some v => simp [List.filterMap_cons, hf, List.getLast?_cons]

/-- An evaluated `WithKeyLength` carries a positive key length and sets only that field. -/
theorem WithKeyLength_ok (n : Int) (o : GeneratorOption) (h : WithKeyLength n = .ok o) :
    0 < n ∧ o = fun g => { g with keyLength := n } := by
  unfold WithKeyLength at h
  split_ifs at h with hn
  simp only [Except.ok.injEq] at h
  exact ⟨by omega, h.symm⟩

/-- The fields of the generator a call `NewGenerator(args...)` returns. -/
theorem newGeneratorCall_fields (read : EntropySource) (calls : List OptionCall)
    (g : Generator) (hbuild : newGeneratorCall read calls = .ok g) :
    g.keyLength = (lastKeyLength calls).getD DefaultKeyLength ∧
    g.rand = (lastRand calls).getD (some (Secure read)) ∧
    (g.encoder, g.decoder) =
      (lastEncoding calls).getD (some NoopEncoding.1, some NoopEncoding.2) ∧
    g.signer = (lastSigner calls).getD (some NoopSigner) ∧
    g.verifier = (lastVerifier calls).getD none := by
  unfold newGeneratorCall at hbuild
  cases hopts : evalOptions calls with
  | error p => simp [hopts] at hbuild
  | ok opts =>
    simp only [hopts, Except.ok.injEq] at hbuild
    subst hbuild
    refine ⟨?_, ?_, ?_, ?_, ?_⟩
    · refine foldl_field_last _ (fun g => g.keyLength) ?_ calls opts _ hopts
      intro c o g hc
      cases c with
      | withKeyLength n => rw [(WithKeyLength_ok n o hc).2]; rfl
      | _ => simp only [OptionCall.eval, Except.ok.injEq] at hc; subst hc; rfl
    · refine foldl_field_last _ (fun g => g.rand) ?_ calls opts _ hopts
      intro c o g hc
      cases c with
      | withKeyLength n => rw [(WithKeyLength_ok n o hc).2]; rfl
      | _ => simp only [OptionCall.eval, Except.ok.injEq] at hc; subst hc; rfl
    · refine foldl_field_last _ (fun g => (g.encoder, g.decoder)) ?_ calls opts _ hopts
      intro c o g hc
      cases c with
      | withKeyLength n => rw [(WithKeyLength_ok n o hc).2]; rfl
      | _ => simp only [OptionCall.eval, Except.ok.injEq] at hc; subst hc; rfl
    · refine foldl_field_last _ (fun g => g.signer) ?_ calls opts _ hopts
      intro c o g hc
      cases c with
      | withKeyLength n => rw [(WithKeyLength_ok n o hc).2]; rfl
      | _ => simp only [OptionCall.eval, Except.ok.injEq] at hc; subst hc; rfl
    · refine foldl_field_last _ (fun g => g.verifier) ?_ calls opts _ hopts
      intro c o g hc
      cases c with
      | withKeyLength n => rw [(WithKeyLength_ok n o hc).2]; rfl
      | _ => simp only [OptionCall.eval, Except.ok.injEq] at hc; subst hc; rfl


/-- The arguments of `NewGenerator(...)` fail to evaluate exactly when one of them is a
`WithKeyLength` with a key length of zero or less. -/
theorem evalOptions_error_iff (calls : List OptionCall) :
    (∃ p, evalOptions calls = .error p) ↔
      ∃ n : Int, n ≤ 0 ∧ OptionCall.withKeyLength n ∈ calls := by
  induction calls with
  | nil => simp [evalOptions]
  | cons c rest ih =>
    have hc : (∃ p, c.eval = .error p) ↔
        ∃ n : Int, n ≤ 0 ∧ c = OptionCall.withKeyLength n := by
      cases c with
      | withKeyLength m =>
        simp only [OptionCall.eval, WithKeyLength, OptionCall.withKeyLength.injEq]
        by_cases hm : m ≤ 0
        · simp only [hm, if_true]
          exact ⟨fun _ => ⟨m, hm, rfl⟩, fun _ => ⟨_, rfl⟩⟩
        · simp only [hm, if_false]
          constructor
          · rintro ⟨p, hp⟩; cases hp
          · rintro ⟨n, hn, rfl⟩; exact absurd hn hm
      | _ => simp [OptionCall.eval]
    unfold evalOptions
    cases hce : c.eval with
    | error p =>
      have : ∃ n : Int, n ≤ 0 ∧ c = OptionCall.withKeyLength n := hc.mp ⟨p, hce⟩
      obtain ⟨n, hn, rfl⟩ := this
      exact ⟨fun _ => ⟨n, hn, List.mem_cons_self _ _⟩, fun _ => ⟨p, rfl⟩⟩
    | ok o =>
      have hno : ¬ ∃ n : Int, n ≤ 0 ∧ c = OptionCall.withKeyLength n := by
        intro h
        obtain ⟨p, hp⟩ := hc.mpr h
        rw [hce] at hp
        cases hp
      cases hr : evalOptions rest with
      | error p =>
        obtain ⟨n, hn, hmem⟩ := ih.mp ⟨p, hr⟩
        exact ⟨fun _ => ⟨n, hn, List.mem_cons_of_mem _ hmem⟩, fun _ => ⟨p, rfl⟩⟩
      | ok os =>
        constructor
        · rintro ⟨p, hp⟩; cases hp
        · rintro ⟨n, hn, hmem⟩
          rcases List.mem_cons.mp hmem with heq | hmem
          · exact absurd ⟨n, hn, heq.symm⟩ hno
          · obtain ⟨p, hp⟩ := ih.mpr ⟨n, hn, hmem⟩
            rw [hr] at hp
            cases hp

/-- Evaluated options keep a positive key length positive. -/
theorem foldl_keyLength_pos (calls : List OptionCall) :
    ∀ (opts : List GeneratorOption) (g0 : Generator), evalOptions calls = .ok opts →
      0 < g0.keyLength → 0 < (opts.foldl (fun g o => o g) g0).keyLength := by
  induction calls with
  | nil =>
    intro opts g0 h hpos
    simp only [evalOptions, Except.ok.injEq] at h
    subst h
    exact hpos
  | cons c rest ih =>
    intro opts g0 h hpos
    obtain ⟨o, os, hc, hr, rfl⟩ := evalOptions_cons_ok c rest opts h
    rw [List.foldl_cons]
    apply ih os (o g0) hr
    cases c with
    | withKeyLength n =>
      obtain ⟨hn, ho⟩ := WithKeyLength_ok n o hc
      rw [ho]
      exact hn
    | _ => simp only [OptionCall.eval, Except.ok.injEq] at hc; subst hc; exact hpos

/-- `GenerateKey` never raises an explicit `panic(msg)`. -/
theorem GenerateKey_no_message_panic (g : Generator) (msg : String) :
    g.GenerateKey ≠ .error (Panic.message msg) := by
  unfold Generator.GenerateKey
  intro h
  split at h
  · cases h
  · split at h
    · cases h
    · split at h
      · cases h
      · split at h
        · cases h
        · split at h <;> cases h

/-- C12 (unsigned defaults and length invariant): for a generator built by `NewGenerator`
from options among which there is no `WithSigner` and no `WithEncoding`, whose rand
returns exactly `keyLength` bytes `res` without error, `GenerateKey` returns exactly `res`
(empty signature, identity encoding), so the key has `keyLength` bytes. -/
theorem unsigned_defaults_length (read : EntropySource) (calls : List OptionCall)
    (g : Generator) (r : Rand) (res : List Byte)
    (hbuild : newGeneratorCall read calls = .ok g)
    (hnosigner : ∀ s, OptionCall.withSigner s ∉ calls)
    (hnoencoding : ∀ e d, OptionCall.withEncoding e d ∉ calls)
    (hr : g.rand = some r) (hres : r g.keyLength = (res, none))
    (hlen : (res.length : Int) = g.keyLength) :
    ∃ key, g.GenerateKey = .ok (key, none) ∧ key = res ∧
      (key.length : Int) = g.keyLength := by
  obtain ⟨_, _, henc, hsig, _⟩ := newGeneratorCall_fields read calls g hbuild
  have hs : lastSigner calls = none := by
    unfold lastSigner
    rw [List.getLast?_eq_none_iff, List.filterMap_eq_nil_iff]
    intro c hc
    cases c with
    | withSigner s => exact absurd hc (hnosigner s)
    | _ => rfl
  have he : lastEncoding calls = none := by
    unfold lastEncoding
    rw [List.getLast?_eq_none_iff, List.filterMap_eq_nil_iff]
    intro c hc
    cases c with
    | withEncoding e d => exact absurd hc (hnoencoding e d)
    | _ => rfl
  rw [hs] at hsig
  rw [he] at henc
  have henc1 : g.encoder = some NoopEncoding.1 := congrArg Prod.fst henc
  refine ⟨res, ?_, rfl, hlen⟩
  have := GenerateKey_of_success g r NoopSigner NoopEncoding.1 res [] hr hres hsig rfl henc1
  simpa [NoopEncoding] using this

/-- Witness for C12: the test's generator `NewGenerator(WithRand(testKeyRand))`; the key
is exactly `testkeylength_16`, 16 bytes. -/
theorem unsigned_defaults_length_witness :
    ∃ key, (NewGenerator zeroEntropy [WithRand (some testKeyRand)]).GenerateKey
        = .ok (key, none) ∧
      key = strBytes "testkeylength_16" ∧
      (key.length : Int) = (NewGenerator zeroEntropy [WithRand (some testKeyRand)]).keyLength :=
  unsigned_defaults_length zeroEntropy [OptionCall.withRand (some testKeyRand)]
    (NewGenerator zeroEntropy [WithRand (some testKeyRand)]) testKeyRand
    (strBytes "testkeylength_16") rfl (by simp) (by simp) rfl rfl (by decide)

/-- C13 (key length validated at construction): `WithKeyLength n` panics exactly when
`n ≤ 0`; for `n > 0` it gives an option, and a generator built with it has key length `n`;
a call `NewGenerator(...)` returns no generator exactly when one of its arguments is a
`WithKeyLength` of zero or less, while `GenerateKey` never raises that panic; and every
generator a call `NewGenerator(...)` returns has a key length above zero. -/
theorem keyLength_validated_at_construction :
    (∀ n : Int, (∃ p, WithKeyLength n = .error p) ↔ n ≤ 0) ∧
    (∀ (n : Int) (read : EntropySource), 0 < n →
      ∃ o, WithKeyLength n = .ok o ∧ (NewGenerator read [o]).keyLength = n) ∧
    (∀ (read : EntropySource) (calls : List OptionCall),
      (∃ p, newGeneratorCall read calls = .error p) ↔
        ∃ n : Int, n ≤ 0 ∧ OptionCall.withKeyLength n ∈ calls) ∧
    (∀ (g : Generator) (msg : String), g.GenerateKey ≠ .error (Panic.message msg)) ∧
    (∀ (read : EntropySource) (calls : List OptionCall) (g : Generator),
      newGeneratorCall read calls = .ok g → 0 < g.keyLength) := by
  refine ⟨?_, ?_, ?_, GenerateKey_no_message_panic, ?_⟩
  · intro n
    unfold WithKeyLength
    by_cases hn : n ≤ 0
    · simp [hn]
    · simp [hn]
  · intro n read hn
    have hn2 : ¬ n ≤ 0 := by omega
    exact ⟨fun g => { g with keyLength := n }, by simp [WithKeyLength, hn2], rfl⟩
  · intro read calls
    rw [← evalOptions_error_iff]
    unfold newGeneratorCall
    cases evalOptions calls with
    | error p => simp
    | ok opts => simp
  · intro read calls g hbuild
    unfold newGeneratorCall at hbuild
    cases hopts : evalOptions calls with
    | error p => simp [hopts] at hbuild
    | ok opts =>
      simp only [hopts, Except.ok.injEq] at hbuild
      subst hbuild
      exact foldl_keyLength_pos calls opts _ hopts (by show (0 : Int) < 16; decide)

/-- C14 (options in order, last one wins): in the generator a call `NewGenerator(...)`
returns, every field holds the value of the last option in the list that sets it, or the
default when none does (`DefaultKeyLength`, `Secure()`, `NoopEncoding`, `NoopSigner`, and
no verifier); and each option changes only its own field, `WithEncoding` its two. -/
theorem options_last_wins (read : EntropySource) (calls : List OptionCall) (g : Generator)
    (hbuild : newGeneratorCall read calls = .ok g) :
    (g.keyLength = (lastKeyLength calls).getD DefaultKeyLength ∧
     g.rand = (lastRand calls).getD (some (Secure read)) ∧
     (g.encoder, g.decoder) =
       (lastEncoding calls).getD (some NoopEncoding.1, some NoopEncoding.2) ∧
     g.signer = (lastSigner calls).getD (some NoopSigner) ∧
     g.verifier = (lastVerifier calls).getD none) ∧
    (∀ (n : Int) (o : GeneratorOption) (g0 : Generator), WithKeyLength n = .ok o →
      o g0 = { g0 with keyLength := n }) ∧
    (∀ (r : Option Rand) (g0 : Generator), WithRand r g0 = { g0 with rand := r }) ∧
    (∀ (e : Option Encoder) (d : Option Decoder) (g0 : Generator),
      WithEncoding e d g0 = { g0 with encoder := e, decoder := d }) ∧
    (∀ (s : Option Signer) (g0 : Generator), WithSigner s g0 = { g0 with signer := s }) ∧
    (∀ (v : Option Verifier) (g0 : Generator),
      WithVerifier v g0 = { g0 with verifier := v }) := by
  refine ⟨newGeneratorCall_fields read calls g hbuild, ?_, fun _ _ => rfl, fun _ _ _ => rfl,
    fun _ _ => rfl, fun _ _ => rfl⟩
  intro n o g0 ho
  rw [(WithKeyLength_ok n o ho).2]

/-- Witness for C14: two `WithKeyLength` and two `WithSigner` in one call; the later ones
win, and the verifier, which no option sets, stays nil. -/
theorem options_last_wins_witness :
    ∃ g, newGeneratorCall zeroEntropy
        [OptionCall.withKeyLength 8, OptionCall.withSigner (some failingSigner),
         OptionCall.withKeyLength 24, OptionCall.withSigner none] = .ok g ∧
      g.keyLength = 24 ∧ g.signer = none ∧ g.verifier = none :=
  ⟨_, rfl,
   (options_last_wins zeroEntropy
      [OptionCall.withKeyLength 8, OptionCall.withSigner (some failingSigner),
       OptionCall.withKeyLength 24, OptionCall.withSigner none] _ rfl).1.1,
   (options_last_wins zeroEntropy
      [OptionCall.withKeyLength 8, OptionCall.withSigner (some failingSigner),
       OptionCall.withKeyLength 24, OptionCall.withSigner none] _ rfl).1.2.2.2.1,
   (options_last_wins zeroEntropy
      [OptionCall.withKeyLength 8, OptionCall.withSigner (some failingSigner),
       OptionCall.withKeyLength 24, OptionCall.withSigner none] _ rfl).1.2.2.2.2⟩

set_option maxRecDepth 1000000 in
/-- C16, as stated, fails: in the key of the HMAC-SHA256 hex generator of the test,
replacing the hex digit `b` at index 9 by `B` gives a different key that decodes to the
same bytes, and `VerifySignature` returns true on it. -/
theorem tamper_detection_counterexample :
    (hmacHexGenerator 12 12).GenerateKey =
      .ok (strBytes "746573746b65796c656e6774685f313642876f7915ca22838f7718a1", none) ∧
    (strBytes "746573746b65796c656e6774685f313642876f7915ca22838f7718a1").set 9 66 =
      strBytes "746573746B65796c656e6774685f313642876f7915ca22838f7718a1" ∧
    strBytes "746573746B65796c656e6774685f313642876f7915ca22838f7718a1" ≠
      strBytes "746573746b65796c656e6774685f313642876f7915ca22838f7718a1" ∧
    (hmacHexGenerator 12 12).VerifySignature
      (strBytes "746573746B65796c656e6774685f313642876f7915ca22838f7718a1") = .ok true :=
  ⟨rfl, rfl, by decide, rfl⟩

/-- C16, amended (tamper detection): take a generator whose signer and verifier are
`HmacSigner h k p` and `HmacVerifier h k p`, whose rand returns exactly `keyLength` bytes
`res` and whose decoder inverts its encoder; `GenerateKey` returns the encoding of
`res ++ sig`, which verifies.  For every other key (a single replaced byte included): if
it fails to decode, `VerifySignature` returns false; if it decodes to bytes that differ
from `res ++ sig` but start with the same random part `res`, `VerifySignature` returns
false; and whenever it decodes to at least `keyLength` bytes, `VerifySignature` returns
true exactly when the bytes after the first `keyLength` are what `HmacSigner h k p`
returns for the first `keyLength` bytes. -/
theorem tamper_detection (g : Generator) (r : Rand) (enc : Encoder) (dec : Decoder)
    (h : HashFunc) (k : List Byte) (p : Int) (key' : List Byte)
    (hr : g.rand = some r)
    (hrand : (r g.keyLength).2 = none ∧ ((r g.keyLength).1.length : Int) = g.keyLength)
    (he : g.encoder = some enc) (hs : g.signer = some (HmacSigner h k p))
    (hd : g.decoder = some dec) (hv : g.verifier = some (HmacVerifier h k p))
    (hcodec : ∀ b, dec (enc b) = (b, none)) :
    g.GenerateKey =
      .ok (enc ((r g.keyLength).1 ++ (HmacSigner h k p (r g.keyLength).1).1), none) ∧
    g.VerifySignature (enc ((r g.keyLength).1 ++ (HmacSigner h k p (r g.keyLength).1).1))
      = .ok true ∧
    ((∃ err, (dec key').2 = some err) → g.VerifySignature key' = .ok false) ∧
    (∀ raw', dec key' = (raw', none) →
      raw' ≠ (r g.keyLength).1 ++ (HmacSigner h k p (r g.keyLength).1).1 →
      raw'.take (r g.keyLength).1.length = (r g.keyLength).1 →
      g.VerifySignature key' = .ok false) ∧
    (∀ raw', dec key' = (raw', none) → (r g.keyLength).1.length ≤ raw'.length →
      (g.VerifySignature key' = .ok true ↔
        raw'.drop (r g.keyLength).1.length =
          (HmacSigner h k p (raw'.take (r g.keyLength).1.length)).1)) := by
  obtain ⟨herr, hlen⟩ := hrand
  have hres : r g.keyLength = ((r g.keyLength).1, none) := by rw [← herr]
  have hgen : ∀ raw', dec key' = (raw', none) → (r g.keyLength).1.length ≤ raw'.length →
      g.VerifySignature key' = .ok (HmacVerifier h k p
        (raw'.take (r g.keyLength).1.length) (raw'.drop (r g.keyLength).1.length)) :=
    fun raw' hraw hn =>
      VerifySignature_of_decoded g dec (HmacVerifier h k p) key' raw' _ hd hraw hlen.symm hn hv
  refine ⟨?_, ?_, ?_, ?_, ?_⟩
  · exact GenerateKey_of_success g r (HmacSigner h k p) enc _ _ hr hres hs rfl he
  · rw [VerifySignature_of_decoded g dec (HmacVerifier h k p) _ _ (r g.keyLength).1.length
      hd (hcodec _) hlen.symm (by simp) hv]
    simp only [List.take_left', List.drop_left', HmacVerifier_HmacSigner]
  · rintro ⟨err, he2⟩
    exact VerifySignature_of_decode_error g dec key' err hd he2
  · intro raw' hraw hne htake
    have hn : (r g.keyLength).1.length ≤ raw'.length := by
      have := congrArg List.length htake
      simp only [List.length_take] at this
      omega
    rw [hgen raw' hraw hn, htake]
    congr 1
    cases hver : HmacVerifier h k p (r g.keyLength).1
        (raw'.drop (r g.keyLength).1.length) with
    | false => rfl
    | true =>
      exfalso
      apply hne
      have hsig := (HmacVerifier_iff h k p _ _).mp hver
      rw [← List.take_append_drop (r g.keyLength).1.length raw', htake, hsig]
  · intro raw' hraw hn
    rw [hgen raw' hraw hn]
    constructor
    · intro hok
      have hver : HmacVerifier h k p (raw'.take (r g.keyLength).1.length)
          (raw'.drop (r g.keyLength).1.length) = true := by
        simpa using hok
      exact (HmacVerifier_iff h k p _ _).mp hver
    · intro hsig
      rw [(HmacVerifier_iff h k p _ _).mpr hsig]

set_option maxRecDepth 1000000 in
/-- Witness for C16 amended: in the key of the HMAC-SHA256 hex generator of the test the
last hex digit `1` is replaced by `2`; the random part is intact, the signature differs,
and the key is rejected. -/
theorem tamper_detection_witness :
    (hmacHexGenerator 12 12).VerifySignature
      (strBytes "746573746b65796c656e6774685f313642876f7915ca22838f7718a2") = .ok false :=
  (tamper_detection (hmacHexGenerator 12 12) testKeyRand HexEncoding.1 HexEncoding.2
    sha256New testSigningKey 12
    (strBytes "746573746b65796c656e6774685f313642876f7915ca22838f7718a2")
    rfl ⟨rfl, by decide⟩ rfl rfl rfl rfl HexEncoding_decoder_encoder).2.2.2.1
    (strBytes "testkeylength_16" ++
      [0x42, 0x87, 0x6f, 0x79, 0x15, 0xca, 0x22, 0x83, 0x8f, 0x77, 0x18, 0xa2])
    rfl (by decide) (by decide)

/-- C17, as stated, fails: a generator configured with `NoopVerifier` and the hex codec
returns false on the key `7g`, which does not decode. -/
theorem noop_verifier_counterexample :
    (NewGenerator zeroEntropy
      [WithVerifier (some NoopVerifier),
       WithEncoding (some HexEncoding.1) (some HexEncoding.2)]).verifier
      = some NoopVerifier ∧
    (NewGenerator zeroEntropy
      [WithVerifier (some NoopVerifier),
       WithEncoding (some HexEncoding.1) (some HexEncoding.2)]).VerifySignature
      (strBytes "7g") = .ok false :=
  ⟨rfl, rfl⟩

/-- C17, amended (permissive no-op verification): for every generator configured with
`NoopVerifier`, `VerifySignature` returns true for every key that decodes without error
to at least `keyLength` bytes, whatever its content, and false for every key on which the
decoder returns an error. -/
theorem noop_verifier_permissive (g : Generator) (dec : Decoder) (key : List Byte)
    (hv : g.verifier = some NoopVerifier) (hd : g.decoder = some dec) :
    (∀ (raw : List Byte) (n : Nat), dec key = (raw, none) → g.keyLength = (n : Int) →
      n ≤ raw.length → g.VerifySignature key = .ok true) ∧
    (∀ (raw : List Byte) (err : GoError), dec key = (raw, some err) →
      g.VerifySignature key = .ok false) := by
  refine ⟨?_, ?_⟩
  · intro raw n hraw hk hn
    rw [VerifySignature_of_decoded g dec NoopVerifier key raw n hd hraw hk hn hv]
    rfl
  · intro raw err hraw
    exact VerifySignature_of_decode_error g dec key err hd (by rw [hraw])

/-- Witness for C17 amended: the default codec with `NoopVerifier` on a 16-byte key that
no generator produced. -/
theorem noop_verifier_permissive_witness :
    (NewGenerator zeroEntropy [WithVerifier (some NoopVerifier)]).VerifySignature
      (strBytes "not_a_signed_key") = .ok true :=
  (noop_verifier_permissive (NewGenerator zeroEntropy [WithVerifier (some NoopVerifier)])
    NoopEncoding.2 (strBytes "not_a_signed_key") rfl rfl).1
    (strBytes "not_a_signed_key") 16 rfl rfl (by decide)

end signedkeys
